import Mathlib

/-!
Verification of the Alectryon interactive annotation engine
(`alectryon/lean3.py`, `alectryon/json.py`, `alectryon/core.py`)
against its natural-language specification.

Strings from the Python source are modelled as `List Char` (Python strings
are sequences of code points, and slicing/indexing in the source is
code-point based).  Fallible operations (Python `assert`, `KeyError`,
`IndexError`, `StopIteration`, raised exceptions) are modelled with
`Option`/explicit result types: `none` means the Python code raises.
-/

namespace Alectryon

/-! ## Core data model (`core.py`)

`Hypothesis`, `Goal`, `Message`, `Sentence`, `Text` are namedtuples in
`core.py`.  `Text` and `Sentence` are the two fragment kinds produced by
the segmenter; a `Message` is just a contents string. -/

structure Hypothesis where
  names : List (List Char)
  body : Option (List Char)
  type : List Char
deriving DecidableEq, Repr

structure Goal where
  name : Option (List Char)
  conclusion : List Char
  hypotheses : List Hypothesis
deriving DecidableEq, Repr

/-- A fragment: `Text(contents)` or `Sentence(contents, messages, goals)`.
Messages attached to a sentence are modelled by their contents string. -/
inductive Fragment where
  | text (contents : List Char)
  | sentence (contents : List Char) (messages : List (List Char)) (goals : List Goal)
deriving DecidableEq, Repr

def Fragment.contents : Fragment → List Char
  | .text c => c
  | .sentence c _ _ => c

def Fragment.msgs : Fragment → List (List Char)
  | .text _ => []
  | .sentence _ ms _ => ms

def Fragment.isText : Fragment → Bool
  | .text _ => true
  | .sentence _ _ _ => false

/-- Concatenated contents of a fragment list (`"".join(fr.contents ...)`). -/
def joinContents (frs : List Fragment) : List Char :=
  (frs.map Fragment.contents).flatten

/-- Python slice `doc[a:b]`. -/
def slice (doc : List Char) (a b : Nat) : List Char :=
  (doc.drop a).take (b - a)

/-! ## `Document` (`lean3.py`): line/offset conversions for claim C9 -/

/-- `Document._find_bols`: offsets of the beginnings of lines, i.e. `0`
followed by the offset just past each `'\n'` of the document. -/
def findBols (doc : List Char) : List Nat :=
  0 :: go doc 0
where
  go : List Char → Nat → List Nat
    | [], _ => []
    | c :: rest, pos => if c = '\n' then (pos + 1) :: go rest (pos + 1) else go rest (pos + 1)

/-- `bisect.bisect_right` specialised to `Nat` lists: the insertion point
for `x` keeping everything ≤ `x` to the left.  On the sorted lists produced
by `findBols` this linear scan computes the same answer as the binary
search used in the source. -/
def bisectRight (l : List Nat) (x : Nat) : Nat :=
  match l with
  | [] => 0
  | a :: rest => if x < a then 0 else bisectRight rest x + 1

/-- `Document.offset2pos`: one-based line and zero-based column. -/
def offset2pos (doc : List Char) (offset : Nat) : Nat × Nat :=
  let bols := findBols doc
  let zline := bisectRight bols offset
  let bol := bols.getD (zline - 1) 0
  (zline, offset - bol)

/-- `Document.pos2offset`. -/
def pos2offset (doc : List Char) (line col : Nat) : Nat :=
  (findBols doc).getD (line - 1) 0 + col

/-! ## Protocol client `_wait` (`lean3.py`) for claim C4 -/

/-- One decoded JSON response from the prover, classified by its
`"response"` kind.  `ok`/`error` carry their `seq_num`; `allMessages`
carries its `msgs` payload; `unexpected` stands for any other kind. -/
inductive LResponse where
  | ok (seqNum : Int)
  | err (seqNum : Int) (message : List Char)
  | currentTasks
  | allMessages (msgs : List (List Char))
  | unexpected
deriving DecidableEq, Repr

/-- Result of `Lean3._wait`: success with the accumulated messages, a
raised `ProtocolError`, a failed `assert` (Python `AssertionError`), or an
exhausted input stream. -/
inductive WaitResult where
  | success (msgs : List (List Char))
  | protocolError (message : List Char)
  | assertFailed
  | outOfInput
deriving DecidableEq, Repr

def WaitResult.isProtocolError : WaitResult → Bool
  | .protocolError _ => true
  | _ => false

def WaitResult.isSuccess : WaitResult → Bool
  | .success _ => true
  | _ => false

/-- `Lean3._wait`: read responses until a terminal one.  On kinds `ok` and
`error` the source first runs `assert js["seq_num"] == self.seq_num`; a
mismatch therefore raises `AssertionError`. -/
def wait (seqNum : Int) (msgs : List (List Char)) : List LResponse → WaitResult
  | [] => .outOfInput
  | .ok s :: _ => if s = seqNum then .success msgs else .assertFailed
  | .err s m :: _ => if s = seqNum then .protocolError m else .assertFailed
  | .currentTasks :: rest => wait seqNum msgs rest
  | .allMessages ms :: rest => wait seqNum ms rest
  | .unexpected :: _ => .protocolError ['u']

/-- Non-terminal responses that `_wait` loops past. -/
def LResponse.isInformational : LResponse → Bool
  | .currentTasks => true
  | .allMessages _ => true
  | _ => false

/-! ## Goal-state parsing (`Lean3._parse_goals`, `Lean3._parse_hyps`) -/

/-- Python's notion of whitespace for `str.strip` / `str.split` /
`\s`, restricted to the ASCII whitespace characters. -/
def pyIsSpace (c : Char) : Bool :=
  c = ' ' || c = '\t' || c = '\n' || c = '\r' || c = '\x0b' || c = '\x0c'

def lstripWs (l : List Char) : List Char := l.dropWhile pyIsSpace

def rstripWs (l : List Char) : List Char := (l.reverse.dropWhile pyIsSpace).reverse

/-- Python `str.strip()`. -/
def stripWs (l : List Char) : List Char := rstripWs (lstripWs l)

/-- Python `str.split()` (split on runs of whitespace, no empty parts). -/
def splitWs : List Char → List (List Char)
  | [] => []
  | c :: rest =>
    if pyIsSpace c then splitWs rest
    else match splitWs rest with
      | [] => [[c]]
      | t :: ts => match rest with
        | [] => [[c]]
        | d :: _ => if pyIsSpace d then [c] :: t :: ts else (c :: t) :: ts

/-- Python `state.split("\n\n")`: split on each non-overlapping
occurrence of two consecutive newlines, scanning left to right. -/
def splitNN : List Char → List (List Char)
  | '\n' :: '\n' :: rest => [] :: splitNN rest
  | c :: rest =>
    match splitNN rest with
    | [] => [[c]]
    | t :: ts => (c :: t) :: ts
  | [] => [[]]

/-- Python `s.find(c)`: index of the first occurrence, `-1` if absent. -/
def pyFindChar : List Char → Char → Int
  | [], _ => -1
  | c :: rest, t =>
    if c = t then 0
    else
      let r := pyFindChar rest t
      if r < 0 then -1 else r + 1

/-- Python `s[i:]`, including the negative-index convention. -/
def pySliceFrom (l : List Char) (i : Int) : List Char :=
  if 0 ≤ i then l.drop i.toNat else l.drop ((l.length : Int) + i).toNat

/-- Python `s.replace("\n  ", "\n")` (newline + two spaces), replacing
non-overlapping occurrences left to right. -/
def replaceNlIndent : List Char → List Char
  | '\n' :: ' ' :: ' ' :: rest => '\n' :: replaceNlIndent rest
  | c :: rest => c :: replaceNlIndent rest
  | [] => []

/-- `CCL_SEP_RE = (?P<hyps>.*?)^⊢(?P<ccl>.*)` with `DOTALL | MULTILINE`,
used with `.match`: the lazy `hyps` group is the shortest prefix after
which `'⊢'` occurs at the beginning of a line; `ccl` is everything after
that `'⊢'`.  `none` models a failed match (on which the source raises
`AttributeError` via `m.group`).  `cclAux` searches for the first
`"\n⊢"` occurrence. -/
def cclAux : List Char → Option (List Char × List Char)
  | '\n' :: '⊢' :: rest => some (['\n'], rest)
  | c :: rest => (cclAux rest).map (fun p => (c :: p.1, p.2))
  | [] => none

def cclSplit (g : List Char) : Option (List Char × List Char) :=
  match g with
  | '⊢' :: rest => some ([], rest)
  | _ => cclAux g

/-- Suffix of `l` after its last `'\n'` (or `l` itself if none). -/
def afterLastNl : List Char → List Char
  | [] => []
  | c :: rest =>
    if ('\n' ∈ rest) then afterLastNl rest
    else if c = '\n' then rest else c :: rest

/-- Split `l` at the first `':'`: `(before, after)`. -/
def splitAtColon : List Char → Option (List Char × List Char)
  | [] => none
  | ':' :: rest => some ([], rest)
  | c :: rest => (splitAtColon rest).map (fun p => (c :: p.1, p.2))

/-- Split on the hypothesis terminator `",\n"` of `HYP_RE`.  A `",\n"`
followed by a space does not terminate a hypothesis: the greedy
`(?:.*|\n )+` type group instead continues onto the indented
continuation line. -/
def splitCommaNl : List Char → List (List Char)
  | ',' :: '\n' :: ' ' :: rest =>
    match splitCommaNl (' ' :: rest) with
    | [] => [[',', '\n']]
    | t :: ts => (',' :: '\n' :: t) :: ts
  | ',' :: '\n' :: rest => [] :: splitCommaNl rest
  | c :: rest =>
    match splitCommaNl rest with
    | [] => [[c]]
    | t :: ts => (c :: t) :: ts
  | [] => [[]]

/-- One `HYP_RE` match inside one `",\n"`-delimited entry: the lazy
`names` group is the text on the colon's own line before the colon
(whitespace-separated into identifiers); the `type` group is the text
after the colon, with surrounding `\s*` absorbed.  Entries in which no
colon occurs produce no match. -/
def parseHyp1 (entry : List Char) : Option Hypothesis :=
  match splitAtColon entry with
  | none => none
  | some (before, after) =>
    let names := splitWs (afterLastNl (rstripWs before))
    let typ := replaceNlIndent (lstripWs after)
    some ⟨names, none, typ⟩

/-- `Lean3._parse_hyps`: `HYP_RE.finditer(hyps.strip())`, each match
yielding `Hypothesis(names, None, type)`. -/
def parseHyps (hyps : List Char) : List Hypothesis :=
  (splitCommaNl (stripWs hyps)).filterMap parseHyp1

/-- A `mapM` for `Option` written by explicit recursion (so that proofs
can unfold it directly). -/
def optMapM (f : α → Option β) : List α → Option (List β)
  | [] => some []
  | x :: xs =>
    match f x, optMapM f xs with
    | some y, some ys => some (y :: ys)
    | _, _ => none

/-- Parse one block of `_parse_goals`'s `"\n\n"`-split: split hypotheses
from conclusion on the turnstile line; `none` models the `AttributeError`
the source raises when `CCL_SEP_RE` does not match. -/
def parseGoal1 (g : List Char) : Option Goal :=
  match cclSplit g with
  | none => none
  | some (hyps, ccl) => some ⟨none, stripWs (replaceNlIndent ccl), parseHyps hyps⟩

/-- `Lean3._parse_goals`: the `"no goals"` sentinel yields no goals;
otherwise split the state on `"\n\n"`, strip the leading `"`n` goals"`
header (everything before the first newline) when there are several
goals, and parse each block. -/
def parseGoals (state : List Char) : Option (List Goal) :=
  if state = "no goals".data then some []
  else
    let goals := splitNN state
    let goals :=
      match goals with
      | g0 :: g1 :: rest => pySliceFrom g0 (pyFindChar g0 '\n') :: g1 :: rest
      | gs => gs
    optMapM parseGoal1 goals

/-! ## Document segmentation (`Lean3._segment`) -/

/-- A sentence range reported by `_find_sentence_ranges`:
`(beg, end, state-string)`. -/
abbrev SRange := Nat × Nat × List Char

/-- A positioned fragment `(beg, end, fragment)` as yielded by
`_segment` and consumed by `_add_messages` / `_rebuild_chunks`. -/
abbrev Seg := Nat × Nat × Fragment

/-- `Lean3._segment`: walk the sentence ranges, emitting `Text` for each
gap and a `Sentence` (with parsed goals and no messages) for each range,
then a final `Text` for the tail of the document.  `none` models a goal
state on which `_parse_goals` raises. -/
def segment (doc : List Char) (pos : Nat) : List SRange → Option (List Seg)
  | [] =>
    some (if pos < doc.length then [(pos, doc.length, .text (slice doc pos doc.length))] else [])
  | (b, e, st) :: rs =>
    match parseGoals st, segment doc e rs with
    | some gs, some rest =>
      some ((if pos < b then [(pos, b, Fragment.text (slice doc pos b))] else []) ++
        (b, e, Fragment.sentence (slice doc b e) [] gs) :: rest)
    | _, _ => none

/-- Well-formedness of prover-reported sentence ranges: ordered,
non-overlapping, within the document. -/
def rangesWF (doc : List Char) (pos : Nat) : List SRange → Bool
  | [] => true
  | (b, e, _) :: rs => pos ≤ b && b ≤ e && e ≤ doc.length && rangesWF doc e rs

/-- The positioned fragments are contiguous, non-overlapping and ordered
by start offset, starting at `pos`. -/
def spansChain (pos : Nat) : List Seg → Bool
  | [] => true
  | (b, e, _) :: rest => b = pos && b ≤ e && spansChain e rest

/-- Concatenated contents of a positioned fragment list. -/
def segContents (segs : List Seg) : List Char :=
  joinContents (segs.map (fun s => s.2.2))

/-! ## Message overlay (`Lean3._add_messages`) -/

/-- A collected message span `(beg, end, text)` as produced by
`_collect_message_spans` (offsets absolute, list sorted ascending). -/
abbrev MsgSpan := Nat × Nat × List Char

/-- The body of `_add_messages`' `while` loop.  `cur` is the fragment
currently under consideration (`fr_beg, fr_end, fr` in the source),
`stack` the remaining fragments (earliest first; the source keeps them
reversed and `pop()`s from the end), `msgs` the remaining message spans.
`none` models a raised `AssertionError` (`assert fr_beg <= beg <= end`)
or `IndexError` (`segments.pop()` on an exhausted stack). -/
def addMsgsLoop (cur : Seg) (stack : List Seg) (msgs : List MsgSpan) : Option (List Seg) :=
  match msgs with
  | [] => some (cur :: stack)
  | (beg, end_, tx) :: rest =>
    match cur with
    | (frBeg, frEnd, fr) =>
      if ¬ (frBeg ≤ beg ∧ beg ≤ end_) then none
      else if beg < frEnd then
        match fr with
        | .text c =>
          let e2 := min end_ frEnd
          let pre : List Seg :=
            if frBeg < beg then [(frBeg, beg, .text (c.take (beg - frBeg)))] else []
          let c1 := c.drop (beg - frBeg)
          if e2 < frEnd then
            (addMsgsLoop (beg, e2, .sentence (c1.take (e2 - beg)) [tx] [])
                ((e2, frEnd, .text (c1.drop (e2 - beg))) :: stack) rest).map (pre ++ ·)
          else
            (addMsgsLoop (beg, frEnd, .sentence c1 [tx] []) stack rest).map (pre ++ ·)
        | .sentence c ms gs =>
          addMsgsLoop (frBeg, frEnd, .sentence c (ms ++ [tx]) gs) stack rest
      else
        match stack with
        | [] => none
        | s :: stack' =>
          (addMsgsLoop s stack' ((beg, end_, tx) :: rest)).map ((frBeg, frEnd, fr) :: ·)
termination_by 2 * msgs.length + stack.length

/-- `Lean3._add_messages`.  With no fragments at all the source `return`s
an empty generator — silently dropping every message. -/
def addMsgs (segs : List Seg) (msgs : List MsgSpan) : Option (List Seg) :=
  match segs with
  | [] => some []
  | s :: rest => addMsgsLoop s rest msgs

/-- All messages attached to sentences of a fragment list, in order. -/
def segMsgs (segs : List Seg) : List (List Char) :=
  (segs.map (fun s => s.2.2.msgs)).flatten

/-- Spans of a fragment list are ordered and non-overlapping, all lying
at or after `lo`. -/
def segsChainFrom (lo : Nat) : List Seg → Bool
  | [] => true
  | (b, e, _) :: rest => lo ≤ b && b ≤ e && segsChainFrom e rest

/-- Message spans are nonempty, sorted ascending and non-overlapping,
all lying at or after `lo`. -/
def msgsChainFrom (lo : Nat) : List MsgSpan → Bool
  | [] => true
  | (b, e, _) :: rest => lo ≤ b && b < e && msgsChainFrom e rest

/-- `m`'s span is fully contained in some fragment's span. -/
def containedB (spans : List Seg) (m : MsgSpan) : Bool :=
  spans.any (fun s => decide (s.1 ≤ m.1) && decide (m.2.1 ≤ s.2.1))

/-- `m`'s span is fully contained in some `Text` fragment's span. -/
def landsText (spans : List Seg) (m : MsgSpan) : Bool :=
  spans.any (fun s => s.2.2.isText && decide (s.1 ≤ m.1) && decide (m.2.1 ≤ s.2.1))

/-- Number of messages landing inside a `Text` fragment. -/
def countT (msgs : List MsgSpan) (spans : List Seg) : Nat :=
  msgs.countP (landsText spans)

/-! ## Chunk reconstruction (`Lean3._rebuild_chunks`, `Lean3._iter_offsets`) -/

/-- `fragment._replace(contents=...)`. -/
def Fragment.withContents : Fragment → List Char → Fragment
  | .text _, c => .text c
  | .sentence _ ms gs, c => .sentence c ms gs

/-- `Lean3._iter_offsets(strs, padding)`: cumulative
`(beg, end, str)` triples, each `end = beg + len + padding`. -/
def iterOffsets (padding : Nat) (end_ : Nat) : List (List Char) → List (Nat × Nat × List Char)
  | [] => []
  | s :: rest => (end_, end_ + s.length + padding, s) :: iterOffsets padding (end_ + s.length + padding) rest

/-- `CHUNK_PADDING = "\n"`: each chunk is padded with one newline before
segmentation; `_annotate` builds the document as the concatenation of the
padded chunks. -/
def padChunks (inputs : List (List Char)) : List Char :=
  (inputs.map (fun c => c ++ ['\n'])).flatten

/-- The body of `_rebuild_chunks`' `while` loop.  `curIn` is the current
input interval (`in_beg, in_end`), `ins` the remaining intervals, `cur`
the current output chunk (reversed), `acc` the completed chunks
(reversed).  `none` models the `assert in_beg <= beg <= end` failing or
`next(inputs)` raising `StopIteration`. -/
def rebuildLoop (segs : List Seg) (curIn : Nat × Nat × List Char)
    (ins : List (Nat × Nat × List Char)) (cur : List Fragment)
    (acc : List (List Fragment)) : Option (List (List Fragment)) :=
  match segs with
  | [] => some ((cur.reverse :: acc).reverse)
  | (beg, end_, fragment) :: segs' =>
    match curIn with
    | (inBeg, inEnd, _) =>
      if ¬ (inBeg ≤ beg ∧ beg ≤ end_) then none
      else if end_ ≤ inEnd then
        rebuildLoop segs' curIn ins (fragment :: cur) acc
      else
        let cur' := if beg < inEnd
          then Fragment.text (fragment.contents.take (inEnd - beg)) :: cur else cur
        let seg' := if beg < inEnd
          then (inEnd, end_, fragment.withContents (fragment.contents.drop (inEnd - beg)))
          else (beg, end_, fragment)
        match ins with
        | [] => none
        | i :: ins' => rebuildLoop (seg' :: segs') i ins' [] (cur'.reverse :: acc)
termination_by (segs.length, ins.length)

/-- Stripping of the synthetic padding from a chunk's trailing fragment
(`assert last.contents.endswith(CHUNK_PADDING)` then slicing it off);
empty chunks are left alone. -/
def stripChunk (chunk : List Fragment) : Option (List Fragment) :=
  match chunk.getLast? with
  | none => some []
  | some last =>
    if last.contents.getLast? = some '\n' then
      some (chunk.dropLast ++ [last.withContents last.contents.dropLast])
    else none

/-- `Lean3._rebuild_chunks`. -/
def rebuildChunks (inputs : List (List Char)) (segments : List Seg) :
    Option (List (List Fragment)) :=
  match inputs with
  | [] => some []
  | _ =>
    match segments, iterOffsets 1 0 inputs with
    | sg :: segs, i :: ins =>
      match rebuildLoop (sg :: segs) i ins [] [] with
      | some chunks => optMapM stripChunk chunks
      | none => none
    | _, _ => none

/-- `segments` exactly covers `doc` from `pos` on: spans contiguous,
nonempty, within the document, and each fragment's contents is the
corresponding slice of `doc`. -/
def coversB (doc : List Char) (pos : Nat) : List Seg → Bool
  | [] => pos = doc.length
  | (b, e, f) :: rest =>
    b = pos && b < e && e ≤ doc.length && f.contents = slice doc b e && coversB doc e rest

/-! ## Serializers (`json.py`)

`json.py` serializes trees built from the eight record types of
`TYPE_OF_ALIASES`, lists, dicts, strings, ints and `None`.  `Val` is
this universe of values; a Python JSON value is a `Val` without `vrec`
nodes.  Dicts are association lists (Python dicts: insertion-ordered,
distinct keys). -/

/-- The eight record types of `TYPE_OF_ALIASES`. -/
inductive RecType where
  | text | hypothesis | goal | message | sentence | goals | messages | richSentence
deriving DecidableEq, Repr

/-- The alias under which each type is serialized (`TYPE_OF_ALIASES`). -/
def RecType.toAlias : RecType → String
  | .text => "text"
  | .hypothesis => "hypothesis"
  | .goal => "goal"
  | .message => "message"
  | .sentence => "sentence"
  | .goals => "goals"
  | .messages => "messages"
  | .richSentence => "rich_sentence"

/-- The `_fields` of each namedtuple, in declaration order (`core.py`). -/
def RecType.fields : RecType → List String
  | .text => ["contents"]
  | .hypothesis => ["names", "body", "type"]
  | .goal => ["name", "conclusion", "hypotheses"]
  | .message => ["contents"]
  | .sentence => ["contents", "messages", "goals"]
  | .goals => ["goals"]
  | .messages => ["messages"]
  | .richSentence => ["contents", "outputs", "annots", "prefixes", "suffixes"]

/-- `TYPE_OF_ALIASES[s]`: `none` models a `KeyError`. -/
def aliasToType (s : String) : Option RecType :=
  if s = "text" then some .text
  else if s = "hypothesis" then some .hypothesis
  else if s = "goal" then some .goal
  else if s = "message" then some .message
  else if s = "sentence" then some .sentence
  else if s = "goals" then some .goals
  else if s = "messages" then some .messages
  else if s = "rich_sentence" then some .richSentence
  else none

/-- Values the serializers operate on. -/
inductive Val where
  | vnull
  | vint (n : Int)
  | vstr (s : String)
  | vlist (xs : List Val)
  | vdict (kvs : List (String × Val))
  | vrec (t : RecType) (fields : List Val)

/-- Python truthiness (`if type_name:`). -/
def Val.truthy : Val → Bool
  | .vnull => false
  | .vint n => n != 0
  | .vstr s => s != ""
  | .vlist xs => !xs.isEmpty
  | .vdict kvs => !kvs.isEmpty
  | .vrec _ _ => true

mutual
/-- Structural (pickle) equality on `Val`, decidably. -/
def valBEq : Val → Val → Bool
  | .vnull, .vnull => true
  | .vint a, .vint b => a == b
  | .vstr a, .vstr b => a == b
  | .vlist a, .vlist b => valBEqList a b
  | .vdict a, .vdict b => valBEqKVs a b
  | .vrec t a, .vrec u b => t == u && valBEqList a b
  | _, _ => false

def valBEqList : List Val → List Val → Bool
  | [], [] => true
  | a :: as_, b :: bs => valBEq a b && valBEqList as_ bs
  | _, _ => false

def valBEqKVs : List (String × Val) → List (String × Val) → Bool
  | [], [] => true
  | (k, a) :: as_, (k2, b) :: bs => k == k2 && valBEq a b && valBEqKVs as_ bs
  | _, _ => false
end

theorem valBEqList_iff (as_ : List Val)
    (ih : ∀ x ∈ as_, ∀ y, valBEq x y = true ↔ x = y) :
    ∀ bs, valBEqList as_ bs = true ↔ as_ = bs := by
  induction as_ with
  | nil => intro bs; cases bs <;> simp [valBEqList]
  | cons a as_ ihl =>
    intro bs
    cases bs with
    | nil => simp [valBEqList]
    | cons b bs =>
      simp only [valBEqList, Bool.and_eq_true]
      rw [ih a (by simp) b, ihl (fun x hx y => ih x (by simp [hx]) y) bs]
      simp

theorem valBEqKVs_iff (as_ : List (String × Val))
    (ih : ∀ p ∈ as_, ∀ y, valBEq p.2 y = true ↔ p.2 = y) :
    ∀ bs, valBEqKVs as_ bs = true ↔ as_ = bs := by
  induction as_ with
  | nil => intro bs; cases bs <;> simp [valBEqKVs]
  | cons a as_ ihl =>
    intro bs
    rcases a with ⟨k, v⟩
    cases bs with
    | nil => simp [valBEqKVs]
    | cons b bs =>
      rcases b with ⟨k2, w⟩
      simp only [valBEqKVs, Bool.and_eq_true]
      rw [ih (k, v) (by simp) w, ihl (fun x hx y => ih x (by simp [hx]) y) bs]
      simp [Prod.ext_iff, and_assoc, beq_iff_eq]

/-- Association-list lookup (`js[k]` read). -/
def dlookup (kvs : List (String × Val)) (k : String) : Option Val :=
  match kvs with
  | [] => none
  | (k', v) :: rest => if k' = k then some v else dlookup rest k

/-- `k in js`. -/
def hasKey (kvs : List (String × Val)) (k : String) : Bool :=
  kvs.any (fun kv => kv.1 == k)

/-- `d.pop(k, None)`: the popped value (if any) and the dict without the
binding. -/
def pyPop (kvs : List (String × Val)) (k : String) :
    Option Val × List (String × Val) :=
  match kvs with
  | [] => (none, [])
  | (k', v) :: rest =>
    if k' = k then (some v, rest)
    else
      let r := pyPop rest k
      (r.1, (k', v) :: r.2)

/-- One insertion step of the insertion sort modelling Python
`sorted(obj.items())`.  Python compares the `(key, value)` tuples, but
dict keys are distinct so only keys are ever compared. -/
def insertKV (p : String × Val) : List (String × Val) → List (String × Val)
  | [] => [p]
  | q :: qs => if p.1 ≤ q.1 then p :: q :: qs else q :: insertKV p qs

/-- `sorted(obj.items())`. -/
def sortKVs (kvs : List (String × Val)) : List (String × Val) :=
  kvs.foldr insertKV []

/-- Dict keys are in ascending order. -/
def keysSorted (kvs : List (String × Val)) : Prop :=
  List.Chain' (· ≤ ·) (kvs.map Prod.fst)

mutual
/-- Structural size, used as the termination measure of the serializers
(the source recurses over `sorted(obj.items())`, which is not a
syntactic subterm). -/
def vsize : Val → Nat
  | .vnull => 1
  | .vint _ => 1
  | .vstr _ => 1
  | .vlist xs => 1 + vsizeList xs
  | .vdict kvs => 1 + vsizeKVs kvs
  | .vrec _ fs => 1 + vsizeList fs

def vsizeList : List Val → Nat
  | [] => 0
  | x :: xs => 1 + vsize x + vsizeList xs

def vsizeKVs : List (String × Val) → Nat
  | [] => 0
  | (_, v) :: rest => 1 + vsize v + vsizeKVs rest
end

theorem vsize_pos (v : Val) : 1 ≤ vsize v := by
  cases v <;> simp [vsize]

theorem vsize_le_of_mem (xs : List Val) : ∀ x ∈ xs, vsize x ≤ vsizeList xs := by
  induction xs with
  | nil => simp
  | cons y ys ih =>
    intro x hx
    rcases List.mem_cons.1 hx with heq | hx'
    · subst heq; simp [vsizeList]; omega
    · have := ih x hx'
      simp [vsizeList]
      omega

theorem vsize_le_of_memKV (kvs : List (String × Val)) :
    ∀ p ∈ kvs, vsize p.2 ≤ vsizeKVs kvs := by
  induction kvs with
  | nil => simp
  | cons q qs ih =>
    rcases q with ⟨k, v⟩
    intro p hp
    rcases List.mem_cons.1 hp with heq | hp'
    · subst heq
      simp [vsizeKVs]
      omega
    · have := ih p hp'
      simp [vsizeKVs]
      omega

theorem valBEq_iff_aux : ∀ (n : Nat) (a : Val), vsize a ≤ n →
    ∀ b, valBEq a b = true ↔ a = b := by
  intro n
  induction n with
  | zero =>
    intro a ha
    have := vsize_pos a
    omega
  | succ n ih =>
    intro a ha b
    cases a with
    | vnull => cases b <;> simp [valBEq]
    | vint x => cases b <;> simp [valBEq]
    | vstr x => cases b <;> simp [valBEq]
    | vlist xs =>
      cases b with
      | vlist ys =>
        simp only [valBEq]
        rw [valBEqList_iff xs
          (fun x hx y => ih x (by have := vsize_le_of_mem xs x hx; simp [vsize] at ha; omega) y) ys]
        simp
      | vnull => simp [valBEq]
      | vint _ => simp [valBEq]
      | vstr _ => simp [valBEq]
      | vdict _ => simp [valBEq]
      | vrec _ _ => simp [valBEq]
    | vdict kvs =>
      cases b with
      | vdict kvs2 =>
        simp only [valBEq]
        rw [valBEqKVs_iff kvs
          (fun p hp y => ih p.2
            (by have := vsize_le_of_memKV kvs p hp; simp [vsize] at ha; omega) y) kvs2]
        simp
      | vnull => simp [valBEq]
      | vint _ => simp [valBEq]
      | vstr _ => simp [valBEq]
      | vlist _ => simp [valBEq]
      | vrec _ _ => simp [valBEq]
    | vrec t fs =>
      cases b with
      | vrec u gs =>
        simp only [valBEq, Bool.and_eq_true]
        rw [valBEqList_iff fs
          (fun x hx y => ih x (by have := vsize_le_of_mem fs x hx; simp [vsize] at ha; omega) y) gs]
        simp
      | vnull => simp [valBEq]
      | vint _ => simp [valBEq]
      | vstr _ => simp [valBEq]
      | vlist _ => simp [valBEq]
      | vdict _ => simp [valBEq]

theorem valBEq_iff (a b : Val) : valBEq a b = true ↔ a = b :=
  valBEq_iff_aux (vsize a) a (le_refl _) b

instance : DecidableEq Val := fun a b => decidable_of_iff _ (valBEq_iff a b)

/-- `obj_table[pickle.dumps(obj)]`: the table is kept as the list of
encoded objects in index order; pickle-equality of these values
coincides with structural equality. -/
def tIndexOf (T : List Val) (v : Val) : Option Nat :=
  match T with
  | [] => none
  | x :: xs => if x = v then some 0 else (tIndexOf xs v).map (· + 1)

/-- `obj_table[i]` with Python's negative-index convention. -/
def pyIndex (T : List Val) (i : Int) : Option Val :=
  if 0 ≤ i then T.get? i.toNat
  else if 0 ≤ (T.length : Int) + i then T.get? ((T.length : Int) + i).toNat
  else none

mutual
/-- Python structural equality (`==`) compares dicts as key-value
mappings, ignoring insertion order; `canon` sorts every dict by key so
that Python-equal values become syntactically equal. -/
def canon : Val → Val
  | .vnull => .vnull
  | .vint n => .vint n
  | .vstr s => .vstr s
  | .vlist xs => .vlist (canonList xs)
  | .vdict kvs => .vdict (sortKVs (canonKVs kvs))
  | .vrec t fs => .vrec t (canonList fs)

def canonList : List Val → List Val
  | [] => []
  | x :: xs => canon x :: canonList xs

def canonKVs : List (String × Val) → List (String × Val)
  | [] => []
  | (k, v) :: rest => (k, canon v) :: canonKVs rest
end

/-- Python `==` on serializer values. -/
def pyEq (a b : Val) : Prop := canon a = canon b

mutual
/-- Well-formed serializer inputs: every value reachable in the Python
pipeline.  Dicts have distinct keys (Python dicts always do) and avoid
the reserved keys checked by the encoders' `assert`s (`"_type"` for
`PlainSerializer`, `"*"`/`"&"` for the deduplicating ones); records have
the arity of their namedtuple. -/
def WFv : Val → Bool
  | .vnull => true
  | .vint _ => true
  | .vstr _ => true
  | .vlist xs => WFvList xs
  | .vdict kvs =>
    !hasKey kvs "_type" && !hasKey kvs "*" && !hasKey kvs "&" &&
      decide ((kvs.map Prod.fst).Nodup) && WFvKVs kvs
  | .vrec t fs => decide (fs.length = t.fields.length) && WFvList fs

def WFvList : List Val → Bool
  | [] => true
  | x :: xs => WFv x && WFvList xs

def WFvKVs : List (String × Val) → Bool
  | [] => true
  | (_, v) :: rest => WFv v && WFvKVs rest
end

/-! ### `PlainSerializer` -/

mutual
/-- `PlainSerializer.encode`.  `none` models a failed `assert` (a dict
containing `"_type"`). -/
def plainEncode : Val → Option Val
  | .vnull => some .vnull
  | .vint n => some (.vint n)
  | .vstr s => some (.vstr s)
  | .vlist xs => (plainEncodeList xs).map .vlist
  | .vdict kvs =>
    if hasKey kvs "_type" then none else (plainEncodeKVs kvs).map .vdict
  | .vrec t fs =>
    (plainEncodeList fs).map (fun es => .vdict (("_type", .vstr t.toAlias) :: t.fields.zip es))

def plainEncodeList : List Val → Option (List Val)
  | [] => some []
  | x :: xs =>
    match plainEncode x, plainEncodeList xs with
    | some y, some ys => some (y :: ys)
    | _, _ => none

def plainEncodeKVs : List (String × Val) → Option (List (String × Val))
  | [] => some []
  | (k, v) :: rest =>
    match plainEncode v, plainEncodeKVs rest with
    | some w, some ws => some ((k, w) :: ws)
    | _, _ => none
end

/-- `TYPE_OF_ALIASES[type_name](**obj)`: keyword construction succeeds
exactly when the keys are the namedtuple's fields. -/
def mkRecord (t : RecType) (kvs : List (String × Val)) : Option Val :=
  if kvs.length = t.fields.length ∧ (kvs.map Prod.fst).Nodup then
    (optMapM (fun f => dlookup kvs f) t.fields).map (Val.vrec t)
  else none

mutual
/-- `PlainSerializer.decode`.  The dict branch decodes all values into a
fresh dict, pops `"_type"` from that copy (`js` itself is only read),
and dispatches on the popped tag: a truthy string tag is looked up in
`TYPE_OF_ALIASES` (`none` models `KeyError`/`TypeError` on unknown or
non-string tags and kwargs mismatches); a falsy tag leaves the popped
dict as is. -/
def plainDecode : Val → Option Val
  | .vlist xs => (plainDecodeList xs).map .vlist
  | .vdict kvs =>
    match plainDecodeKVs kvs with
    | none => none
    | some obj =>
      let r := pyPop obj "_type"
      match r.1 with
      | some tv =>
        if tv.truthy then
          match tv with
          | .vstr tn =>
            match aliasToType tn with
            | some t => mkRecord t r.2
            | none => none
          | _ => none
        else some (.vdict r.2)
      | none => some (.vdict r.2)
  | v => some v

def plainDecodeList : List Val → Option (List Val)
  | [] => some []
  | x :: xs =>
    match plainDecode x, plainDecodeList xs with
    | some y, some ys => some (y :: ys)
    | _, _ => none

def plainDecodeKVs : List (String × Val) → Option (List (String × Val))
  | [] => some []
  | (k, v) :: rest =>
    match plainDecode v, plainDecodeKVs rest with
    | some w, some ws => some ((k, w) :: ws)
    | _, _ => none
end

/-! ### Deduplicating serializers -/

theorem vsizeKVs_insertKV (p : String × Val) (l : List (String × Val)) :
    vsizeKVs (insertKV p l) = 1 + vsize p.2 + vsizeKVs l := by
  induction l with
  | nil => rcases p with ⟨k, v⟩; rfl
  | cons q qs ih =>
    rcases p with ⟨k, v⟩
    rcases q with ⟨k2, w⟩
    simp only [insertKV]
    split
    · rfl
    · simp only [vsizeKVs, ih]
      omega

theorem vsizeKVs_sortKVs (kvs : List (String × Val)) :
    vsizeKVs (sortKVs kvs) = vsizeKVs kvs := by
  induction kvs with
  | nil => rfl
  | cons q qs ih =>
    rcases q with ⟨k, v⟩
    show vsizeKVs (insertKV (k, v) (sortKVs qs)) = _
    rw [vsizeKVs_insertKV, ih]
    rfl

theorem vsize_dlookup (kvs : List (String × Val)) (k : String) (v : Val)
    (h : dlookup kvs k = some v) : vsize v ≤ vsizeKVs kvs := by
  induction kvs with
  | nil => simp [dlookup] at h
  | cons q qs ih =>
    rcases q with ⟨k2, w⟩
    simp only [dlookup] at h
    split at h
    · cases h
      simp [vsizeKVs]
      omega
    · have := ih h
      simp [vsizeKVs]
      omega

mutual
/-- `DeduplicatingSerializer.encode`.  The table is the list of already
encoded records in first-occurrence order; a repeated record becomes a
back-reference `{"*": N}`; a new record is encoded as
`{"&": alias, "_": [fields...]}` and registered after its children.
Plain dicts are encoded in `sorted(obj.items())` order; `none` models a
failed `assert` (a dict containing `"*"` or `"&"`). -/
def dEnc : Val → List Val → Option (Val × List Val)
  | .vnull, T => some (.vnull, T)
  | .vint n, T => some (.vint n, T)
  | .vstr s, T => some (.vstr s, T)
  | .vlist xs, T =>
    match dEncList xs T with
    | some (ys, T') => some (.vlist ys, T')
    | none => none
  | .vdict kvs, T =>
    if hasKey kvs "*" || hasKey kvs "&" then none
    else
      match dEncKVs (sortKVs kvs) T with
      | some (ws, T') => some (.vdict ws, T')
      | none => none
  | .vrec t fs, T =>
    match tIndexOf T (.vrec t fs) with
    | some i => some (.vdict [("*", .vint i)], T)
    | none =>
      match dEncList fs T with
      | some (es, T') =>
        some (.vdict [("&", .vstr t.toAlias), ("_", .vlist es)], T' ++ [.vrec t fs])
      | none => none
termination_by v T => vsize v
decreasing_by
  all_goals simp [vsize, vsizeList, vsizeKVs, vsizeKVs_sortKVs]
  all_goals omega

def dEncList : List Val → List Val → Option (List Val × List Val)
  | [], T => some ([], T)
  | x :: xs, T =>
    match dEnc x T with
    | some (y, T') =>
      match dEncList xs T' with
      | some (ys, T'') => some (y :: ys, T'')
      | none => none
    | none => none
termination_by xs T => vsizeList xs
decreasing_by
  all_goals simp [vsize, vsizeList, vsizeKVs]
  all_goals omega

def dEncKVs : List (String × Val) → List Val → Option (List (String × Val) × List Val)
  | [], T => some ([], T)
  | (k, v) :: rest, T =>
    match dEnc v T with
    | some (w, T') =>
      match dEncKVs rest T' with
      | some (ws, T'') => some ((k, w) :: ws, T'')
      | none => none
    | none => none
termination_by kvs T => vsizeKVs kvs
decreasing_by
  all_goals simp [vsize, vsizeList, vsizeKVs]
  all_goals omega
end

mutual
/-- `DeduplicatingSerializer.decode` (`copy=False`).  The table is the
list of decoded records in the order the encoder registered them; a
`{"*": N}` dict resolves to `obj_table[N]` (shared, not copied); a
`{"&": ...}` dict reconstructs the record positionally and appends it;
other dicts are decoded in `sorted(js.items())` order. -/
def dDec : Val → List Val → Option (Val × List Val)
  | .vdict kvs, T =>
    if hasKey kvs "*" then
      match dlookup kvs "*" with
      | some (.vint i) =>
        match pyIndex T i with
        | some v => some (v, T)
        | none => none
      | _ => none
    else if hasKey kvs "&" then
      match dlookup kvs "&" with
      | some (.vstr tn) =>
        match aliasToType tn with
        | some t =>
          match h : dlookup kvs "_" with
          | some (.vlist args) =>
            match dDecList args T with
            | some (as_, T') =>
              if as_.length = t.fields.length then
                some (.vrec t as_, T' ++ [.vrec t as_])
              else none
            | none => none
          | _ => none
        | none => none
      | _ => none
    else
      match dDecKVs (sortKVs kvs) T with
      | some (ws, T') => some (.vdict ws, T')
      | none => none
  | .vlist xs, T =>
    match dDecList xs T with
    | some (ys, T') => some (.vlist ys, T')
    | none => none
  | v, T => some (v, T)
termination_by v T => vsize v
decreasing_by
  all_goals simp [vsize, vsizeList, vsizeKVs, vsizeKVs_sortKVs]
  all_goals first
    | omega
    | (have hle : vsize (Val.vlist _) ≤ vsizeKVs kvs := vsize_dlookup kvs "_" _ (by assumption)
       simp [vsize] at hle
       omega)

def dDecList : List Val → List Val → Option (List Val × List Val)
  | [], T => some ([], T)
  | x :: xs, T =>
    match dDec x T with
    | some (y, T') =>
      match dDecList xs T' with
      | some (ys, T'') => some (y :: ys, T'')
      | none => none
    | none => none
termination_by xs T => vsizeList xs
decreasing_by
  all_goals simp [vsize, vsizeList, vsizeKVs]
  all_goals omega

def dDecKVs : List (String × Val) → List Val → Option (List (String × Val) × List Val)
  | [], T => some ([], T)
  | (k, v) :: rest, T =>
    match dDec v T with
    | some (w, T') =>
      match dDecKVs rest T' with
      | some (ws, T'') => some ((k, w) :: ws, T'')
      | none => none
    | none => none
termination_by kvs T => vsizeKVs kvs
decreasing_by
  all_goals simp [vsize, vsizeList, vsizeKVs]
  all_goals omega
end

mutual
/-- `FullyDeduplicatingSerializer.encode`: like `dEnc`, but the table
indexes every encoded node (records, containers and primitives); a node
is registered after `_encode` returns, i.e. after its children. -/
def fEnc : Val → List Val → Option (Val × List Val)
  | v, T =>
    match tIndexOf T v with
    | some i => some (.vdict [("*", .vint i)], T)
    | none =>
      match fEncInner v T with
      | some (j, T') => some (j, T' ++ [v])
      | none => none
termination_by v T => (vsize v, 1)
decreasing_by
  all_goals exact Prod.Lex.right _ (by omega)

/-- `FullyDeduplicatingSerializer._encode`. -/
def fEncInner : Val → List Val → Option (Val × List Val)
  | .vlist xs, T =>
    match fEncList xs T with
    | some (ys, T') => some (.vlist ys, T')
    | none => none
  | .vdict kvs, T =>
    if hasKey kvs "*" || hasKey kvs "&" then none
    else
      match fEncKVs (sortKVs kvs) T with
      | some (ws, T') => some (.vdict ws, T')
      | none => none
  | .vrec t fs, T =>
    match fEncList fs T with
    | some (es, T') => some (.vdict [("&", .vstr t.toAlias), ("_", .vlist es)], T')
    | none => none
  | v, T => some (v, T)
termination_by v T => (vsize v, 0)
decreasing_by
  all_goals simp [vsize, vsizeKVs_sortKVs]
  all_goals omega

def fEncList : List Val → List Val → Option (List Val × List Val)
  | [], T => some ([], T)
  | x :: xs, T =>
    match fEnc x T with
    | some (y, T') =>
      match fEncList xs T' with
      | some (ys, T'') => some (y :: ys, T'')
      | none => none
    | none => none
termination_by xs T => (vsizeList xs, 2)
decreasing_by
  all_goals simp [vsize, vsizeList]
  all_goals omega

def fEncKVs : List (String × Val) → List Val → Option (List (String × Val) × List Val)
  | [], T => some ([], T)
  | (k, v) :: rest, T =>
    match fEnc v T with
    | some (w, T') =>
      match fEncKVs rest T' with
      | some (ws, T'') => some ((k, w) :: ws, T'')
      | none => none
    | none => none
termination_by kvs T => (vsizeKVs kvs, 2)
decreasing_by
  all_goals simp [vsize, vsizeKVs]
  all_goals omega
end

mutual
/-- `FullyDeduplicatingSerializer.decode` (`copy=False`): a `{"*": N}`
dict resolves to `obj_table[N]` without registering anything; any other
node is decoded by `_decode` and then appended to the table. -/
def fDec : Val → List Val → Option (Val × List Val)
  | .vdict kvs, T =>
    if hasKey kvs "*" then
      match dlookup kvs "*" with
      | some (.vint i) =>
        match pyIndex T i with
        | some v => some (v, T)
        | none => none
      | _ => none
    else
      match fDecInner (.vdict kvs) T with
      | some (obj, T') => some (obj, T' ++ [obj])
      | none => none
  | js, T =>
    match fDecInner js T with
    | some (obj, T') => some (obj, T' ++ [obj])
    | none => none
termination_by js T => (vsize js, 1)
decreasing_by
  all_goals exact Prod.Lex.right _ (by omega)

/-- `FullyDeduplicatingSerializer._decode`. -/
def fDecInner : Val → List Val → Option (Val × List Val)
  | .vlist xs, T =>
    match fDecList xs T with
    | some (ys, T') => some (.vlist ys, T')
    | none => none
  | .vdict kvs, T =>
    if hasKey kvs "&" then
      match dlookup kvs "&" with
      | some (.vstr tn) =>
        match aliasToType tn with
        | some t =>
          match h : dlookup kvs "_" with
          | some (.vlist args) =>
            match fDecList args T with
            | some (as_, T') =>
              if as_.length = t.fields.length then some (.vrec t as_, T')
              else none
            | none => none
          | _ => none
        | none => none
      | _ => none
    else
      match fDecKVs (sortKVs kvs) T with
      | some (ws, T') => some (.vdict ws, T')
      | none => none
  | v, T => some (v, T)
termination_by v T => (vsize v, 0)
decreasing_by
  all_goals simp [vsize, vsizeList, vsizeKVs, vsizeKVs_sortKVs]
  all_goals first
    | omega
    | (have hle : vsize (Val.vlist _) ≤ vsizeKVs kvs := vsize_dlookup kvs "_" _ (by assumption)
       simp [vsize] at hle
       omega)

def fDecList : List Val → List Val → Option (List Val × List Val)
  | [], T => some ([], T)
  | x :: xs, T =>
    match fDec x T with
    | some (y, T') =>
      match fDecList xs T' with
      | some (ys, T'') => some (y :: ys, T'')
      | none => none
    | none => none
termination_by xs T => (vsizeList xs, 2)
decreasing_by
  all_goals simp [vsize, vsizeList]
  all_goals omega

def fDecKVs : List (String × Val) → List Val → Option (List (String × Val) × List Val)
  | [], T => some ([], T)
  | (k, v) :: rest, T =>
    match fDec v T with
    | some (w, T') =>
      match fDecKVs rest T' with
      | some (ws, T'') => some ((k, w) :: ws, T'')
      | none => none
    | none => none
termination_by kvs T => (vsizeKVs kvs, 2)
decreasing_by
  all_goals simp [vsize, vsizeKVs]
  all_goals omega
end

/-- `DeduplicatingSerializer.encode` / `.decode` as used by callers
(fresh object table). -/
def dedupEncode (v : Val) : Option Val := (dEnc v []).map Prod.fst

def dedupDecode (j : Val) : Option Val := (dDec j []).map Prod.fst

/-- `FullyDeduplicatingSerializer.encode` / `.decode` as used by
callers. -/
def fullyEncode (v : Val) : Option Val := (fEnc v []).map Prod.fst

def fullyDecode (j : Val) : Option Val := (fDec j []).map Prod.fst

/-- A concrete annotated tree with shared substructure (the same goal
record occurs three times), an empty list, a nested hypothesis record
and a plain dict. -/
def exampleTree : Val :=
  .vlist
    [.vrec .goal [.vnull, .vstr "⊢ A",
       .vlist [.vrec .hypothesis [.vlist [.vstr "h"], .vnull, .vstr "nat"]]],
     .vrec .goal [.vnull, .vstr "⊢ A",
       .vlist [.vrec .hypothesis [.vlist [.vstr "h"], .vnull, .vstr "nat"]]],
     .vrec .sentence [.vstr "trivial,", .vlist [],
       .vlist [.vrec .goal [.vnull, .vstr "⊢ A",
         .vlist [.vrec .hypothesis [.vlist [.vstr "h"], .vnull, .vstr "nat"]]]]],
     .vdict [("k", .vint 1)], .vlist []]

/-! ### `FileCache` (`json.py`) -/

/-- The record `FileCache.put` stores in `self.data` (the `generator`
entry plays no role in `_validate` and is omitted). -/
structure CacheData where
  metadata : Val
  chunks : List (List Char)
  annotated : Val
deriving DecidableEq

/-- `FileCache.put`: stores the cache's metadata, the chunk list and
the `PlainSerializer`-encoded annotated document. -/
def cachePut (metadata : Val) (chunks : List (List Char)) (annotated : Val) :
    Option CacheData :=
  (plainEncode annotated).map (fun e => CacheData.mk metadata chunks e)

/-- `FileCache.get` with `FileCache._validate` inlined: a miss (`none`)
unless the cache's current metadata equals the stored metadata (Python
`==`, order-insensitive on dicts, hence compared through `canon`) and
the chunk list equals the stored one; on a hit the stored annotated
document is decoded with `PlainSerializer.decode`. -/
def cacheGet (curMetadata : Val) (data : Option CacheData)
    (chunks : List (List Char)) : Option Val :=
  match data with
  | none => none
  | some d =>
    if canon curMetadata = canon d.metadata ∧ chunks = d.chunks then
      plainDecode d.annotated
    else none

/-! ### Mutation-tracking decoders

The Python decoders receive a `js` object they could in principle
mutate in place (`dict.pop`, `list.append`, item assignment).  The `M`
variants below additionally return the state of the input object after
the call, mirroring each operation of the source: reads leave the input
unchanged, recursion substitutes each child's post-state back into
place, and `PlainSerializer.decode`'s `pop("_type")` is applied to the
freshly built `obj`, not to `js` — so a hypothetical `js.pop` would
show up as a changed post-state. -/

mutual
/-- `PlainSerializer.decode`, paired with the input's post-state. -/
def plainDecodeM : Val → Option (Val × Val)
  | .vlist xs =>
    match plainDecodeListM xs with
    | some (ys, xs') => some (.vlist ys, .vlist xs')
    | none => none
  | .vdict kvs =>
    match plainDecodeKVsM kvs with
    | none => none
    | some (obj, kvs') =>
      let r := pyPop obj "_type"
      match r.1 with
      | some tv =>
        if tv.truthy then
          match tv with
          | .vstr tn =>
            match aliasToType tn with
            | some t => (mkRecord t r.2).map (fun w => (w, .vdict kvs'))
            | none => none
          | _ => none
        else some (.vdict r.2, .vdict kvs')
      | none => some (.vdict r.2, .vdict kvs')
  | v => some (v, v)

def plainDecodeListM : List Val → Option (List Val × List Val)
  | [] => some ([], [])
  | x :: xs =>
    match plainDecodeM x, plainDecodeListM xs with
    | some (y, x'), some (ys, xs') => some (y :: ys, x' :: xs')
    | _, _ => none

def plainDecodeKVsM : List (String × Val) → Option (List (String × Val) × List (String × Val))
  | [] => some ([], [])
  | (k, v) :: rest =>
    match plainDecodeM v, plainDecodeKVsM rest with
    | some (w, v'), some (ws, rest') => some ((k, w) :: ws, (k, v') :: rest')
    | _, _ => none
end

/-- Substitute each value of `kvs` by its post-state as recorded in
`post` (the values of a dict are decoded after a `sorted(js.items())`,
so the post-states come keyed rather than positionally). -/
def substPost (post : List (String × Val)) (kvs : List (String × Val)) :
    List (String × Val) :=
  kvs.map (fun kv => (kv.1, (dlookup post kv.1).getD kv.2))

mutual
/-- `DeduplicatingSerializer.decode` (`copy=False`), paired with the
input's post-state. -/
def dDecM : Val → List Val → Option (Val × Val × List Val)
  | .vdict kvs, T =>
    if hasKey kvs "*" then
      match dlookup kvs "*" with
      | some (.vint i) =>
        match pyIndex T i with
        | some v => some (v, .vdict kvs, T)
        | none => none
      | _ => none
    else if hasKey kvs "&" then
      match dlookup kvs "&" with
      | some (.vstr tn) =>
        match aliasToType tn with
        | some t =>
          match h : dlookup kvs "_" with
          | some (.vlist args) =>
            match dDecListM args T with
            | some (as_, args', T') =>
              if as_.length = t.fields.length then
                some (.vrec t as_, .vdict (substPost [("_", .vlist args')] kvs),
                  T' ++ [.vrec t as_])
              else none
            | none => none
          | _ => none
        | none => none
      | _ => none
    else
      match dDecKVsM (sortKVs kvs) T with
      | some (ws, post, T') => some (.vdict ws, .vdict (substPost post kvs), T')
      | none => none
  | .vlist xs, T =>
    match dDecListM xs T with
    | some (ys, xs', T') => some (.vlist ys, .vlist xs', T')
    | none => none
  | v, T => some (v, v, T)
termination_by v T => vsize v
decreasing_by
  all_goals simp [vsize, vsizeList, vsizeKVs, vsizeKVs_sortKVs]
  all_goals first
    | omega
    | (have hle : vsize (Val.vlist _) ≤ vsizeKVs kvs := vsize_dlookup kvs "_" _ (by assumption)
       simp [vsize] at hle
       omega)

def dDecListM : List Val → List Val → Option (List Val × List Val × List Val)
  | [], T => some ([], [], T)
  | x :: xs, T =>
    match dDecM x T with
    | some (y, x', T') =>
      match dDecListM xs T' with
      | some (ys, xs', T'') => some (y :: ys, x' :: xs', T'')
      | none => none
    | none => none
termination_by xs T => vsizeList xs
decreasing_by
  all_goals simp [vsize, vsizeList, vsizeKVs]
  all_goals omega

def dDecKVsM : List (String × Val) → List Val →
    Option (List (String × Val) × List (String × Val) × List Val)
  | [], T => some ([], [], T)
  | (k, v) :: rest, T =>
    match dDecM v T with
    | some (w, v', T') =>
      match dDecKVsM rest T' with
      | some (ws, rest', T'') => some ((k, w) :: ws, (k, v') :: rest', T'')
      | none => none
    | none => none
termination_by kvs T => vsizeKVs kvs
decreasing_by
  all_goals simp [vsize, vsizeList, vsizeKVs]
  all_goals omega
end

mutual
/-- Every dict reachable in the value has pairwise-distinct keys, as
every dict arriving from Python or JSON does. -/
def nodupKeys : Val → Bool
  | .vnull => true
  | .vint _ => true
  | .vstr _ => true
  | .vlist xs => nodupKeysList xs
  | .vdict kvs => decide ((kvs.map Prod.fst).Nodup) && nodupKeysKVs kvs
  | .vrec _ fs => nodupKeysList fs

def nodupKeysList : List Val → Bool
  | [] => true
  | x :: xs => nodupKeys x && nodupKeysList xs

def nodupKeysKVs : List (String × Val) → Bool
  | [] => true
  | (_, v) :: rest => nodupKeys v && nodupKeysKVs rest
end

end Alectryon

namespace Alectryon

/-! ## Theorems for claims C9 and C4 -/

/-- If `a ≤ x` then the element of `a :: l` found at the insertion point
for `x` in `l` is still `≤ x`. -/
theorem getD_bisectRight_le (l : List Nat) (x a : Nat) (ha : a ≤ x) :
    (a :: l).getD (bisectRight l x) 0 ≤ x := by
  induction l generalizing a with
  | nil => simpa [bisectRight] using ha
  | cons b rest ih =>
    by_cases hb : x < b
    · simpa [bisectRight, hb] using ha
    · simpa [bisectRight, hb] using ih b (Nat.le_of_not_lt hb)

/-- The beginning-of-line offset computed by `offset2pos` never exceeds
the offset itself. -/
theorem offset2pos_bol_le (doc : List Char) (off : Nat) :
    (findBols doc).getD (bisectRight (findBols doc) off - 1) 0 ≤ off := by
  show (0 :: findBols.go doc 0).getD (bisectRight (0 :: findBols.go doc 0) off - 1) 0 ≤ off
  have h0 : ¬ off < 0 := by omega
  simp only [bisectRight, h0, if_false, Nat.add_sub_cancel]
  exact getD_bisectRight_le _ off 0 (Nat.zero_le off)

/-- C9: `pos2offset` is a left inverse of `offset2pos` on every offset in
`[0, length doc]` (in fact on every offset). -/
theorem pos2offset_offset2pos (doc : List Char) (off : Nat) (h : off ≤ doc.length) :
    pos2offset doc (offset2pos doc off).1 (offset2pos doc off).2 = off := by
  unfold pos2offset offset2pos
  simp only []
  have hle := offset2pos_bol_le doc off
  omega

/-- Witness for C9 at a concrete document and offset. -/
theorem pos2offset_offset2pos_witness :
    (4 ≤ ("ab\ncd".data).length) ∧
      pos2offset "ab\ncd".data (offset2pos "ab\ncd".data 4).1 (offset2pos "ab\ncd".data 4).2 = 4 :=
  ⟨by decide, pos2offset_offset2pos "ab\ncd".data 4 (by decide)⟩

/-- C4 counterexample: a terminal `ok` response whose `seq_num` (3) differs
from the outstanding request's `seq_num` (2) makes `_wait` fail via its
`assert`, i.e. with `AssertionError` — not with `ProtocolError` as the
claim states. -/
theorem wait_mismatch_not_protocolError :
    wait 2 [] [LResponse.ok 3] = .assertFailed ∧
      (wait 2 [] [LResponse.ok 3]).isProtocolError = false ∧
      (wait 2 [] [LResponse.ok 3]).isSuccess = false := by
  refine ⟨rfl, rfl, rfl⟩

/-- C4 (amended): a terminal `ok` or `error` response with a `seq_num`
differing from the outstanding request — arriving after any number of
informational responses — makes `_wait` fail with an assertion failure,
and in particular is never treated as success. -/
theorem wait_mismatched_terminal (seqNum s : Int) (m : List Char)
    (msgs : List (List Char)) (pre rest : List LResponse)
    (hpre : ∀ r ∈ pre, r.isInformational = true) (hne : s ≠ seqNum) :
    wait seqNum msgs (pre ++ .ok s :: rest) = .assertFailed ∧
      wait seqNum msgs (pre ++ .err s m :: rest) = .assertFailed ∧
      (wait seqNum msgs (pre ++ .ok s :: rest)).isSuccess = false := by
  induction pre generalizing msgs with
  | nil => simp [wait, hne, WaitResult.isSuccess]
  | cons r pre ih =>
    have hr : r.isInformational = true := hpre r (by simp)
    have hpre' : ∀ r' ∈ pre, r'.isInformational = true := fun r' h => hpre r' (by simp [h])
    cases r with
    | currentTasks => simpa [wait] using ih msgs hpre'
    | allMessages ms => simpa [wait] using ih ms hpre'
    | ok _ => simp [LResponse.isInformational] at hr
    | err _ _ => simp [LResponse.isInformational] at hr
    | unexpected => simp [LResponse.isInformational] at hr

/-- Witness for the amended C4 at a concrete response stream. -/
theorem wait_mismatched_terminal_witness :
    (∀ r ∈ [LResponse.currentTasks], r.isInformational = true) ∧ (3 : Int) ≠ 2 ∧
      wait 2 [] ([LResponse.currentTasks] ++ .ok 3 :: []) = .assertFailed := by
  refine ⟨by decide, by decide, ?_⟩
  exact (wait_mismatched_terminal 2 3 [] [] [LResponse.currentTasks] []
    (by decide) (by decide)).1

/-! ## Theorems for claim C8 (goal-state parsing) -/

theorem optMapM_length (f : α → Option β) (l : List α) (l' : List β)
    (h : optMapM f l = some l') : l'.length = l.length := by
  induction l generalizing l' with
  | nil =>
    simp only [optMapM, Option.some.injEq] at h
    simp [← h]
  | cons x xs ih =>
    simp only [optMapM] at h
    cases hfx : f x <;> rw [hfx] at h
    · exact absurd h (by simp)
    · cases hxs : optMapM f xs <;> rw [hxs] at h
      · exact absurd h (by simp)
      · simp only [Option.some.injEq] at h
        simp [← h, ih _ hxs]

/-- C8: `_parse_goals` yields the empty goal list on the exact state
string `"no goals"`; the prover-reported states `"2 goals\n⊢ A\n\n⊢ B"`,
`"1 goal\n⊢ B"` and `"no goals"` yield goal lists of lengths 2, 1 and 0;
and in general, on any other state string on which parsing succeeds, one
goal is produced per `"\n\n"`-separated block (the leading `"N goals"`
header being stripped from the first block when there are several). -/
theorem parseGoals_spec :
    parseGoals "no goals".data = some [] ∧
      (parseGoals "2 goals\n⊢ A\n\n⊢ B".data).map List.length = some 2 ∧
      (parseGoals "1 goal\n⊢ B".data).map List.length = some 1 ∧
      ∀ st gs, st ≠ "no goals".data → parseGoals st = some gs →
        gs.length = (splitNN st).length := by
  refine ⟨by rfl, by rfl, by rfl, ?_⟩
  intro st gs hne h
  simp only [parseGoals, if_neg hne] at h
  rcases hsp : splitNN st with _ | ⟨g0, _ | ⟨g1, rest⟩⟩ <;> rw [hsp] at h
  · simpa using optMapM_length _ _ _ h
  · simpa using optMapM_length _ _ _ h
  · simpa using optMapM_length _ _ _ h

/-- Witness for the general part of C8 at a concrete state string. -/
theorem parseGoals_spec_witness :
    "⊢ T".data ≠ "no goals".data ∧ parseGoals "⊢ T".data = some [⟨none, "T".data, []⟩] ∧
      ([(⟨none, "T".data, []⟩ : Goal)]).length = (splitNN "⊢ T".data).length :=
  ⟨by decide, by rfl, parseGoals_spec.2.2.2 "⊢ T".data [⟨none, "T".data, []⟩] (by decide) (by rfl)⟩

/-! ## Theorems for claim C1 (segmenter round-trip) -/

theorem segContents_nil : segContents [] = [] := rfl

theorem segContents_cons (s : Seg) (rest : List Seg) :
    segContents (s :: rest) = s.2.2.contents ++ segContents rest := by
  simp [segContents, joinContents]

theorem segContents_append (a b : List Seg) :
    segContents (a ++ b) = segContents a ++ segContents b := by
  simp [segContents, joinContents]

theorem slice_append_drop (doc : List Char) (a b : Nat) (h : a ≤ b) :
    slice doc a b ++ doc.drop b = doc.drop a := by
  unfold slice
  conv_rhs => rw [← List.take_append_drop (b - a) (doc.drop a)]
  rw [List.drop_drop]
  congr 2
  omega

theorem slice_to_length (doc : List Char) (a : Nat) :
    slice doc a doc.length = doc.drop a := by
  unfold slice
  apply List.take_of_length_le
  simp

/-- Generalised C1 statement: starting from `pos`, the segmenter emits a
fragment list whose contents concatenate to `doc.drop pos`, with spans
contiguous, non-overlapping and ordered. -/
theorem segment_spec_aux (doc : List Char) (ranges : List SRange) :
    ∀ pos, rangesWF doc pos ranges = true →
      (∀ r ∈ ranges, (parseGoals r.2.2).isSome = true) →
      ∃ out, segment doc pos ranges = some out ∧
        segContents out = doc.drop pos ∧ spansChain pos out = true := by
  induction ranges with
  | nil =>
    intro pos _ _
    refine ⟨_, rfl, ?_, ?_⟩
    · by_cases hlt : pos < doc.length
      · simp [hlt, segContents_cons, segContents_nil, slice_to_length, Fragment.contents]
      · simp [hlt, segContents_nil, List.drop_eq_nil_iff.2 (Nat.le_of_not_lt hlt)]
    · by_cases hlt : pos < doc.length
      · simp [hlt, spansChain, Nat.le_of_lt hlt]
      · simp [hlt, spansChain]
  | cons r rs ih =>
    rcases r with ⟨b, e, st⟩
    intro pos hwf hparse
    simp only [rangesWF, Bool.and_eq_true, decide_eq_true_eq] at hwf
    obtain ⟨⟨⟨hpb, hbe⟩, hel⟩, hwf'⟩ := hwf
    obtain ⟨gs, hgs⟩ := Option.isSome_iff_exists.1 (hparse (b, e, st) (by simp))
    have hgs' : parseGoals st = some gs := hgs
    obtain ⟨rest, hrest, hcont, hchain⟩ :=
      ih e hwf' (fun r hr => hparse r (by simp [hr]))
    have hseg : segment doc pos ((b, e, st) :: rs) =
        some ((if pos < b then [(pos, b, Fragment.text (slice doc pos b))] else []) ++
          (b, e, Fragment.sentence (slice doc b e) [] gs) :: rest) := by
      simp only [segment, hgs', hrest]
    refine ⟨_, hseg, ?_, ?_⟩
    · rw [segContents_append, segContents_cons, hcont]
      by_cases hpb' : pos < b
      · simp only [if_pos hpb', segContents_cons, segContents_nil, List.append_nil,
          Fragment.contents]
        rw [slice_append_drop doc b e hbe, slice_append_drop doc pos b (Nat.le_of_lt hpb')]
      · have hpb2 : pos = b := by omega
        subst hpb2
        simp only [if_neg hpb', segContents_nil, List.nil_append, Fragment.contents]
        rw [slice_append_drop doc pos e hbe]
    · by_cases hpb' : pos < b
      · simp [spansChain, hpb', hbe, hchain, Nat.le_of_lt hpb']
      · have : pos = b := by omega
        subst this
        simp [spansChain, hpb', hbe, hchain]

/-- C1: for every document and every well-formed sequence of
prover-reported sentence ranges (with parsable goal states), the
fragments emitted by `_segment` concatenate exactly to the source, and
their spans are contiguous, non-overlapping and ordered by start
offset. -/
theorem segment_roundTrip (doc : List Char) (ranges : List SRange)
    (hwf : rangesWF doc 0 ranges = true)
    (hparse : ∀ r ∈ ranges, (parseGoals r.2.2).isSome = true) :
    ∃ out, segment doc 0 ranges = some out ∧
      segContents out = doc ∧ spansChain 0 out = true := by
  simpa using segment_spec_aux doc ranges 0 hwf hparse

/-- Witness for C1 at a concrete document and range list. -/
theorem segment_roundTrip_witness :
    rangesWF "begin x, end".data 0 [(0, 5, "no goals".data)] = true ∧
      (∀ r ∈ [((0 : Nat), (5 : Nat), "no goals".data)], (parseGoals r.2.2).isSome = true) ∧
      ∃ out, segment "begin x, end".data 0 [(0, 5, "no goals".data)] = some out ∧
        segContents out = "begin x, end".data ∧ spansChain 0 out = true :=
  ⟨by decide, by decide,
    segment_roundTrip "begin x, end".data [(0, 5, "no goals".data)] (by decide) (by decide)⟩

/-! ## Theorems for claim C5 (overlay overflow) -/

/-- C5 counterexample: with an empty fragment list and a pending message,
`_add_messages` returns successfully (an empty fragment list) instead of
reporting an error — the message is silently dropped. -/
theorem addMsgs_empty_silently_drops :
    addMsgs [] [(5, 6, "oops".data)] = some [] ∧
      segMsgs [] = [] :=
  ⟨rfl, rfl⟩

/-- Helper for the amended C5: if some message starts at or beyond the
end of every live fragment, the loop never terminates normally — it runs
out of fragments (modelled `none`: `IndexError` on `segments.pop()`) or
fails its assertion. -/
theorem addMsgsLoop_overflow (mb me : Nat) (mt : List Char) :
    ∀ (cur : Seg) (stack : List Seg) (msgs : List MsgSpan),
      (mb, me, mt) ∈ msgs → (∀ s ∈ cur :: stack, s.2.1 ≤ mb) →
      addMsgsLoop cur stack msgs = none := by
  intro cur stack msgs
  induction cur, stack, msgs using addMsgsLoop.induct with
  | case1 cur stack =>
    intro hmem _
    exact absurd hmem (List.not_mem_nil _)
  | case2 stack beg end_ tx rest frBeg frEnd fr h =>
    intro _ _
    rw [addMsgsLoop.eq_def]
    simp [h]
  | case3 stack beg end_ tx rest frBeg frEnd h hlt a e2 c1 hsuf ih =>
    intro hmem hover
    have hfe : frEnd ≤ mb := hover (frBeg, frEnd, Fragment.text a) (List.mem_cons_self _ _)
    have hmem' : (mb, me, mt) ∈ rest := by
      rcases List.mem_cons.1 hmem with heq | h'
      · exfalso
        have : mb = beg := by simpa using congrArg (fun p => p.1) heq
        omega
      · exact h'
    have hover' : ∀ s ∈ (beg, e2, Fragment.sentence (c1.take (e2 - beg)) [tx] []) ::
        (e2, frEnd, Fragment.text (c1.drop (e2 - beg))) :: stack, s.2.1 ≤ mb := by
      intro s hs
      rcases List.mem_cons.1 hs with heq | hs'
      · subst heq; show e2 ≤ mb; omega
      · rcases List.mem_cons.1 hs' with heq | hs''
        · subst heq; exact hfe
        · exact hover s (by simp [hs''])
    rw [addMsgsLoop.eq_def]
    simp only [if_neg h, if_pos hlt, if_pos hsuf]
    rw [ih hmem' hover']
    rfl
  | case4 stack beg end_ tx rest frBeg frEnd h hlt a e2 c1 hsuf ih =>
    intro hmem hover
    have hfe : frEnd ≤ mb := hover (frBeg, frEnd, Fragment.text a) (List.mem_cons_self _ _)
    have hmem' : (mb, me, mt) ∈ rest := by
      rcases List.mem_cons.1 hmem with heq | h'
      · exfalso
        have : mb = beg := by simpa using congrArg (fun p => p.1) heq
        omega
      · exact h'
    have hover' : ∀ s ∈ (beg, frEnd, Fragment.sentence c1 [tx] []) :: stack, s.2.1 ≤ mb := by
      intro s hs
      rcases List.mem_cons.1 hs with heq | hs'
      · subst heq; exact hfe
      · exact hover s (by simp [hs'])
    rw [addMsgsLoop.eq_def]
    simp only [if_neg h, if_pos hlt, if_neg hsuf]
    rw [ih hmem' hover']
    rfl
  | case5 stack beg end_ tx rest frBeg frEnd h hlt a ms gs ih =>
    intro hmem hover
    have hfe : frEnd ≤ mb := hover (frBeg, frEnd, Fragment.sentence a ms gs) (List.mem_cons_self _ _)
    have hmem' : (mb, me, mt) ∈ rest := by
      rcases List.mem_cons.1 hmem with heq | h'
      · exfalso
        have : mb = beg := by simpa using congrArg (fun p => p.1) heq
        omega
      · exact h'
    have hover' : ∀ s ∈ (frBeg, frEnd, Fragment.sentence a (ms ++ [tx]) gs) :: stack,
        s.2.1 ≤ mb := by
      intro s hs
      rcases List.mem_cons.1 hs with heq | hs'
      · subst heq; exact hfe
      · exact hover s (by simp [hs'])
    rw [addMsgsLoop.eq_def]
    simp only [if_neg h, if_pos hlt]
    exact ih hmem' hover'
  | case6 beg end_ tx rest frBeg frEnd fr h hge =>
    intro _ _
    rw [addMsgsLoop.eq_def]
    simp [h, hge]
  | case7 beg end_ tx rest frBeg frEnd fr h hge s stack' ih =>
    intro hmem hover
    have hover' : ∀ t ∈ s :: stack', t.2.1 ≤ mb := fun t ht => hover t (by simp [List.mem_cons.1 ht])
    rw [addMsgsLoop.eq_def]
    simp only [if_neg h, if_neg hge]
    rw [ih hmem hover']
    rfl

/-- C5 (amended): on a *nonempty* fragment list, a message whose start
lies at or beyond the end of every fragment makes `_add_messages` fail
(the fragment stack is exhausted and `pop()` raises) rather than
silently dropping the message; with an empty fragment list, however, the
messages are silently dropped (see the counterexample). -/
theorem addMsgs_overflow_errors (segs : List Seg) (msgs : List MsgSpan)
    (mb me : Nat) (mt : List Char) (hne : segs ≠ [])
    (hmem : (mb, me, mt) ∈ msgs) (hover : ∀ s ∈ segs, s.2.1 ≤ mb) :
    addMsgs segs msgs = none := by
  cases segs with
  | nil => exact absurd rfl hne
  | cons s rest => exact addMsgsLoop_overflow mb me mt s rest msgs hmem hover

/-! ## Theorems for claim C3 (message overlay accounting) -/

theorem segMsgs_cons (s : Seg) (l : List Seg) :
    segMsgs (s :: l) = s.2.2.msgs ++ segMsgs l := by
  simp [segMsgs]

theorem segMsgs_append (a b : List Seg) :
    segMsgs (a ++ b) = segMsgs a ++ segMsgs b := by
  simp [segMsgs]

theorem segMsgs_eq_nil (l : List Seg) (h : ∀ s ∈ l, s.2.2.msgs = []) :
    segMsgs l = [] := by
  induction l with
  | nil => rfl
  | cons s t ih =>
    rw [segMsgs_cons, h s (List.mem_cons_self _ _),
      ih (fun x hx => h x (List.mem_cons_of_mem _ hx))]
    rfl

theorem msgsChainFrom_le (lo : Nat) (l : List MsgSpan) (h : msgsChainFrom lo l = true) :
    ∀ m ∈ l, lo ≤ m.1 ∧ m.1 < m.2.1 := by
  induction l generalizing lo with
  | nil => simp
  | cons x r ih =>
    rcases x with ⟨b, e, t⟩
    simp only [msgsChainFrom, Bool.and_eq_true, decide_eq_true_eq] at h
    obtain ⟨⟨h1, h2⟩, h3⟩ := h
    intro m hm
    rcases List.mem_cons.1 hm with heq | hm'
    · subst heq; exact ⟨h1, h2⟩
    · have := ih e h3 m hm'
      exact ⟨by omega, this.2⟩

theorem msgsChainFrom_weaken (lo' lo : Nat) (l : List MsgSpan) (hle : lo' ≤ lo)
    (h : msgsChainFrom lo l = true) : msgsChainFrom lo' l = true := by
  cases l with
  | nil => rfl
  | cons x r =>
    rcases x with ⟨b, e, t⟩
    simp only [msgsChainFrom, Bool.and_eq_true, decide_eq_true_eq] at h ⊢
    exact ⟨⟨by omega, h.1.2⟩, h.2⟩

theorem segsChainFrom_le (lo : Nat) (l : List Seg) (h : segsChainFrom lo l = true) :
    ∀ s ∈ l, lo ≤ s.1 ∧ s.1 ≤ s.2.1 := by
  induction l generalizing lo with
  | nil => simp
  | cons x r ih =>
    rcases x with ⟨b, e, f⟩
    simp only [segsChainFrom, Bool.and_eq_true, decide_eq_true_eq] at h
    obtain ⟨⟨h1, h2⟩, h3⟩ := h
    intro s hs
    rcases List.mem_cons.1 hs with heq | hs'
    · subst heq; exact ⟨h1, h2⟩
    · have := ih e h3 s hs'
      exact ⟨by omega, this.2⟩

theorem segsChainFrom_weaken (lo' lo : Nat) (l : List Seg) (hle : lo' ≤ lo)
    (h : segsChainFrom lo l = true) : segsChainFrom lo' l = true := by
  cases l with
  | nil => rfl
  | cons x r =>
    rcases x with ⟨b, e, f⟩
    simp only [segsChainFrom, Bool.and_eq_true, decide_eq_true_eq] at h ⊢
    exact ⟨⟨by omega, h.1.2⟩, h.2⟩

theorem countP_le_of_imp (l : List α) (p q : α → Bool)
    (h : ∀ a ∈ l, p a = true → q a = true) : l.countP p ≤ l.countP q := by
  induction l with
  | nil => simp
  | cons a t ih =>
    rw [List.countP_cons, List.countP_cons]
    have ht := ih (fun x hx => h x (List.mem_cons_of_mem _ hx))
    by_cases hpa : p a = true
    · rw [if_pos hpa, if_pos (h a (List.mem_cons_self _ _) hpa)]
      omega
    · rw [if_neg hpa]
      split <;> omega

theorem containedB_iff (spans : List Seg) (m : MsgSpan) :
    containedB spans m = true ↔ ∃ s ∈ spans, s.1 ≤ m.1 ∧ m.2.1 ≤ s.2.1 := by
  simp [containedB, List.any_eq_true, Bool.and_eq_true]

theorem landsText_iff (spans : List Seg) (m : MsgSpan) :
    landsText spans m = true ↔
      ∃ s ∈ spans, s.2.2.isText = true ∧ s.1 ≤ m.1 ∧ m.2.1 ≤ s.2.1 := by
  simp [landsText, List.any_eq_true, Bool.and_eq_true, and_assoc]

/-- Invariant lemma for `_add_messages`' loop: with ordered fragments, a
sorted non-overlapping message list each contained in some live span, and
message-free stack fragments, the loop succeeds; the messages attached to
the output are the current fragment's messages followed by all remaining
message texts in order, and the output grows by at most 2 per message
landing in a `Text` fragment. -/
theorem addMsgsLoop_spec :
    ∀ (cur : Seg) (stack : List Seg) (msgs : List MsgSpan),
      segsChainFrom 0 (cur :: stack) = true →
      msgsChainFrom 0 msgs = true →
      (∀ m ∈ msgs, containedB (cur :: stack) m = true) →
      (∀ s ∈ stack, s.2.2.msgs = []) →
      ∃ out, addMsgsLoop cur stack msgs = some out ∧
        segMsgs out = cur.2.2.msgs ++ msgs.map (fun m => m.2.2) ∧
        out.length ≤ 1 + stack.length + 2 * countT msgs (cur :: stack) := by
  intro cur stack msgs
  induction cur, stack, msgs using addMsgsLoop.induct with
  | case1 cur stack =>
    intro _ _ _ hstack
    refine ⟨cur :: stack, by rw [addMsgsLoop.eq_def], ?_, ?_⟩
    · rw [segMsgs_cons, segMsgs_eq_nil stack hstack]
      simp [countT]
    · simp only [countT, List.countP_nil, List.length_cons]
      omega
  | case2 stack beg end_ tx rest frBeg frEnd fr h =>
    intro hord hchain hcont _
    exfalso
    simp only [segsChainFrom, Bool.and_eq_true, decide_eq_true_eq] at hord
    obtain ⟨⟨-, hbe⟩, hchainst⟩ := hord
    simp only [msgsChainFrom, Bool.and_eq_true, decide_eq_true_eq] at hchain
    obtain ⟨⟨-, hbeglt⟩, -⟩ := hchain
    obtain ⟨s, hs, hs1, hs2⟩ :=
      (containedB_iff _ _).1 (hcont _ (List.mem_cons_self _ _))
    rcases List.mem_cons.1 hs with heq | hs'
    · subst heq
      exact h ⟨hs1, by omega⟩
    · have := (segsChainFrom_le frEnd stack hchainst s hs').1
      exact h ⟨by omega, by omega⟩
  | case3 stack beg end_ tx rest frBeg frEnd h hlt a e2 c1 hsuf ih =>
    intro hord hchain hcont hstack
    simp only [segsChainFrom, Bool.and_eq_true, decide_eq_true_eq] at hord
    obtain ⟨⟨-, hbe⟩, hchainst⟩ := hord
    simp only [msgsChainFrom, Bool.and_eq_true, decide_eq_true_eq] at hchain
    obtain ⟨⟨-, hbeglt⟩, hchainrest⟩ := hchain
    have hP : frBeg ≤ beg ∧ beg ≤ end_ := not_not.1 h
    have hhead : end_ ≤ frEnd := by
      obtain ⟨s, hs, hs1, hs2⟩ :=
        (containedB_iff _ _).1 (hcont _ (List.mem_cons_self _ _))
      rcases List.mem_cons.1 hs with heq | hs'
      · subst heq; exact hs2
      · have := (segsChainFrom_le frEnd stack hchainst s hs').1
        omega
    have he2 : e2 = end_ := min_eq_left hhead
    have hord' : segsChainFrom 0
        ((beg, e2, Fragment.sentence (c1.take (e2 - beg)) [tx] []) ::
          (e2, frEnd, Fragment.text (c1.drop (e2 - beg))) :: stack) = true := by
      simp only [segsChainFrom, Bool.and_eq_true, decide_eq_true_eq]
      exact ⟨⟨Nat.zero_le _, by omega⟩, ⟨by omega, by omega⟩, hchainst⟩
    have hchain' := msgsChainFrom_weaken 0 end_ rest (Nat.zero_le _) hchainrest
    have hcont' : ∀ m ∈ rest, containedB
        ((beg, e2, Fragment.sentence (c1.take (e2 - beg)) [tx] []) ::
          (e2, frEnd, Fragment.text (c1.drop (e2 - beg))) :: stack) m = true := by
      intro m hm
      have hmlo := msgsChainFrom_le end_ rest hchainrest m hm
      obtain ⟨t, ht, ht1, ht2⟩ :=
        (containedB_iff _ _).1 (hcont m (List.mem_cons_of_mem _ hm))
      rcases List.mem_cons.1 ht with heq | ht'
      · subst heq
        refine (containedB_iff _ _).2
          ⟨(e2, frEnd, Fragment.text (c1.drop (e2 - beg))), by simp, ?_, ht2⟩
        show e2 ≤ m.1
        omega
      · exact (containedB_iff _ _).2 ⟨t, by simp [ht'], ht1, ht2⟩
    have hstack' : ∀ s ∈ (e2, frEnd, Fragment.text (c1.drop (e2 - beg))) :: stack,
        s.2.2.msgs = [] := by
      intro s hs'
      rcases List.mem_cons.1 hs' with heq | h''
      · subst heq; rfl
      · exact hstack s h''
    obtain ⟨out', hout', hmsgs', hlen'⟩ := ih hord' hchain' hcont' hstack'
    rw [addMsgsLoop.eq_def]
    simp only [if_neg h, if_pos hlt, if_pos hsuf]
    rw [hout']
    simp only [Option.map_some']
    refine ⟨_, rfl, ?_, ?_⟩
    · rw [segMsgs_append, hmsgs']
      by_cases hpb : frBeg < beg
      · simp [hpb, segMsgs, Fragment.msgs]
      · simp [hpb, segMsgs, Fragment.msgs]
    · have hTold : landsText ((frBeg, frEnd, Fragment.text a) :: stack)
          (beg, end_, tx) = true :=
        (landsText_iff _ _).2 ⟨(frBeg, frEnd, Fragment.text a), List.mem_cons_self _ _,
          rfl, hP.1, hhead⟩
      have hcount : countT ((beg, end_, tx) :: rest)
          ((frBeg, frEnd, Fragment.text a) :: stack) =
          countT rest ((frBeg, frEnd, Fragment.text a) :: stack) + 1 := by
        rw [countT, countT, List.countP_cons, if_pos hTold]
      have hmono : countT rest
          ((beg, e2, Fragment.sentence (c1.take (e2 - beg)) [tx] []) ::
            (e2, frEnd, Fragment.text (c1.drop (e2 - beg))) :: stack) ≤
          countT rest ((frBeg, frEnd, Fragment.text a) :: stack) := by
        refine countP_le_of_imp _ _ _ ?_
        intro m hm hland
        obtain ⟨t, ht, htx, ht1, ht2⟩ := (landsText_iff _ _).1 hland
        rcases List.mem_cons.1 ht with heq | ht'
        · subst heq; simp [Fragment.isText] at htx
        · rcases List.mem_cons.1 ht' with heq | ht''
          · subst heq
            refine (landsText_iff _ _).2 ⟨(frBeg, frEnd, Fragment.text a),
              List.mem_cons_self _ _, rfl, ?_, ht2⟩
            show frBeg ≤ m.1
            have : e2 ≤ m.1 := ht1
            omega
          · exact (landsText_iff _ _).2 ⟨t, List.mem_cons_of_mem _ ht'', htx, ht1, ht2⟩
      have hpre : (if frBeg < beg
          then [((frBeg : Nat), beg, Fragment.text (a.take (beg - frBeg)))] else []).length ≤ 1 := by
        split <;> simp
      rw [List.length_append]
      simp only [List.length_cons] at hlen'
      omega
  | case4 stack beg end_ tx rest frBeg frEnd h hlt a e2 c1 hsuf ih =>
    intro hord hchain hcont hstack
    simp only [segsChainFrom, Bool.and_eq_true, decide_eq_true_eq] at hord
    obtain ⟨⟨-, hbe⟩, hchainst⟩ := hord
    simp only [msgsChainFrom, Bool.and_eq_true, decide_eq_true_eq] at hchain
    obtain ⟨⟨-, hbeglt⟩, hchainrest⟩ := hchain
    have hP : frBeg ≤ beg ∧ beg ≤ end_ := not_not.1 h
    have hhead : end_ ≤ frEnd := by
      obtain ⟨s, hs, hs1, hs2⟩ :=
        (containedB_iff _ _).1 (hcont _ (List.mem_cons_self _ _))
      rcases List.mem_cons.1 hs with heq | hs'
      · subst heq; exact hs2
      · have := (segsChainFrom_le frEnd stack hchainst s hs').1
        omega
    have he2 : e2 = end_ := min_eq_left hhead
    have hfe : end_ = frEnd := by
      have : e2 = frEnd := by omega
      omega
    have hord' : segsChainFrom 0
        ((beg, frEnd, Fragment.sentence c1 [tx] []) :: stack) = true := by
      simp only [segsChainFrom, Bool.and_eq_true, decide_eq_true_eq]
      exact ⟨⟨Nat.zero_le _, by omega⟩, hchainst⟩
    have hchain' := msgsChainFrom_weaken 0 end_ rest (Nat.zero_le _) hchainrest
    have hcont' : ∀ m ∈ rest, containedB
        ((beg, frEnd, Fragment.sentence c1 [tx] []) :: stack) m = true := by
      intro m hm
      have hmlo := msgsChainFrom_le end_ rest hchainrest m hm
      obtain ⟨t, ht, ht1, ht2⟩ :=
        (containedB_iff _ _).1 (hcont m (List.mem_cons_of_mem _ hm))
      rcases List.mem_cons.1 ht with heq | ht'
      · exfalso
        subst heq
        have h1 : frEnd ≤ m.1 := by omega
        have h2 : m.2.1 ≤ frEnd := ht2
        omega
      · exact (containedB_iff _ _).2 ⟨t, by simp [ht'], ht1, ht2⟩
    obtain ⟨out', hout', hmsgs', hlen'⟩ := ih hord' hchain' hcont' hstack
    rw [addMsgsLoop.eq_def]
    simp only [if_neg h, if_pos hlt, if_neg hsuf]
    rw [hout']
    simp only [Option.map_some']
    refine ⟨_, rfl, ?_, ?_⟩
    · rw [segMsgs_append, hmsgs']
      by_cases hpb : frBeg < beg
      · simp [hpb, segMsgs, Fragment.msgs]
      · simp [hpb, segMsgs, Fragment.msgs]
    · have hTold : landsText ((frBeg, frEnd, Fragment.text a) :: stack)
          (beg, end_, tx) = true :=
        (landsText_iff _ _).2 ⟨(frBeg, frEnd, Fragment.text a), List.mem_cons_self _ _,
          rfl, hP.1, hhead⟩
      have hcount : countT ((beg, end_, tx) :: rest)
          ((frBeg, frEnd, Fragment.text a) :: stack) =
          countT rest ((frBeg, frEnd, Fragment.text a) :: stack) + 1 := by
        rw [countT, countT, List.countP_cons, if_pos hTold]
      have hmono : countT rest
          ((beg, frEnd, Fragment.sentence c1 [tx] []) :: stack) ≤
          countT rest ((frBeg, frEnd, Fragment.text a) :: stack) := by
        refine countP_le_of_imp _ _ _ ?_
        intro m hm hland
        obtain ⟨t, ht, htx, ht1, ht2⟩ := (landsText_iff _ _).1 hland
        rcases List.mem_cons.1 ht with heq | ht'
        · subst heq; simp [Fragment.isText] at htx
        · exact (landsText_iff _ _).2 ⟨t, List.mem_cons_of_mem _ ht', htx, ht1, ht2⟩
      have hpre : (if frBeg < beg
          then [((frBeg : Nat), beg, Fragment.text (a.take (beg - frBeg)))] else []).length ≤ 1 := by
        split <;> simp
      rw [List.length_append]
      omega
  | case5 stack beg end_ tx rest frBeg frEnd h hlt a ms gs ih =>
    intro hord hchain hcont hstack
    simp only [segsChainFrom, Bool.and_eq_true, decide_eq_true_eq] at hord
    obtain ⟨⟨-, hbe⟩, hchainst⟩ := hord
    simp only [msgsChainFrom, Bool.and_eq_true, decide_eq_true_eq] at hchain
    obtain ⟨⟨-, hbeglt⟩, hchainrest⟩ := hchain
    have hord' : segsChainFrom 0
        ((frBeg, frEnd, Fragment.sentence a (ms ++ [tx]) gs) :: stack) = true := by
      simp only [segsChainFrom, Bool.and_eq_true, decide_eq_true_eq]
      exact ⟨⟨Nat.zero_le _, hbe⟩, hchainst⟩
    have hchain' := msgsChainFrom_weaken 0 end_ rest (Nat.zero_le _) hchainrest
    have hcont' : ∀ m ∈ rest, containedB
        ((frBeg, frEnd, Fragment.sentence a (ms ++ [tx]) gs) :: stack) m = true := by
      intro m hm
      obtain ⟨t, ht, ht1, ht2⟩ :=
        (containedB_iff _ _).1 (hcont m (List.mem_cons_of_mem _ hm))
      rcases List.mem_cons.1 ht with heq | ht'
      · subst heq
        exact (containedB_iff _ _).2
          ⟨(frBeg, frEnd, Fragment.sentence a (ms ++ [tx]) gs), by simp, ht1, ht2⟩
      · exact (containedB_iff _ _).2 ⟨t, by simp [ht'], ht1, ht2⟩
    obtain ⟨out', hout', hmsgs', hlen'⟩ := ih hord' hchain' hcont' hstack
    rw [addMsgsLoop.eq_def]
    simp only [if_neg h, if_pos hlt]
    rw [hout']
    refine ⟨_, rfl, ?_, ?_⟩
    · rw [hmsgs']
      simp [Fragment.msgs]
    · have hmono : countT rest
          ((frBeg, frEnd, Fragment.sentence a (ms ++ [tx]) gs) :: stack) ≤
          countT ((beg, end_, tx) :: rest)
            ((frBeg, frEnd, Fragment.sentence a ms gs) :: stack) := by
        have h1 : countT rest
            ((frBeg, frEnd, Fragment.sentence a (ms ++ [tx]) gs) :: stack) ≤
            countT rest ((frBeg, frEnd, Fragment.sentence a ms gs) :: stack) := by
          refine countP_le_of_imp _ _ _ ?_
          intro m hm hland
          obtain ⟨t, ht, htx, ht1, ht2⟩ := (landsText_iff _ _).1 hland
          rcases List.mem_cons.1 ht with heq | ht'
          · subst heq; simp [Fragment.isText] at htx
          · exact (landsText_iff _ _).2 ⟨t, List.mem_cons_of_mem _ ht', htx, ht1, ht2⟩
        have h2 : countT rest ((frBeg, frEnd, Fragment.sentence a ms gs) :: stack) ≤
            countT ((beg, end_, tx) :: rest)
              ((frBeg, frEnd, Fragment.sentence a ms gs) :: stack) := by
          rw [countT, countT, List.countP_cons]
          split <;> omega
        omega
      omega
  | case6 beg end_ tx rest frBeg frEnd fr h hge =>
    intro hord hchain hcont _
    exfalso
    simp only [msgsChainFrom, Bool.and_eq_true, decide_eq_true_eq] at hchain
    obtain ⟨⟨-, hbeglt⟩, -⟩ := hchain
    obtain ⟨s, hs, hs1, hs2⟩ :=
      (containedB_iff _ _).1 (hcont _ (List.mem_cons_self _ _))
    rcases List.mem_cons.1 hs with heq | hs'
    · subst heq
      have : end_ ≤ frEnd := hs2
      omega
    · exact absurd hs' (List.not_mem_nil _)
  | case7 beg end_ tx rest frBeg frEnd fr h hge s stack' ih =>
    intro hord hchain hcont hstack
    simp only [segsChainFrom, Bool.and_eq_true, decide_eq_true_eq] at hord
    obtain ⟨⟨-, hbe⟩, hchainst⟩ := hord
    simp only [msgsChainFrom, Bool.and_eq_true, decide_eq_true_eq] at hchain
    obtain ⟨⟨-, hbeglt⟩, hchainrest⟩ := hchain
    have hord' : segsChainFrom 0 (s :: stack') = true := by
      simp only [segsChainFrom, Bool.and_eq_true, decide_eq_true_eq]
      exact ⟨⟨Nat.zero_le _, hchainst.1.2⟩, hchainst.2⟩
    have hchain0 : msgsChainFrom 0 ((beg, end_, tx) :: rest) = true := by
      simp only [msgsChainFrom, Bool.and_eq_true, decide_eq_true_eq]
      exact ⟨⟨Nat.zero_le _, hbeglt⟩, hchainrest⟩
    have hcont' : ∀ m ∈ (beg, end_, tx) :: rest, containedB (s :: stack') m = true := by
      intro m hm
      obtain ⟨t, ht, ht1, ht2⟩ := (containedB_iff _ _).1 (hcont m hm)
      rcases List.mem_cons.1 ht with heq | ht'
      · exfalso
        subst heq
        have hmlo : beg ≤ m.1 ∧ m.1 < m.2.1 := by
          rcases List.mem_cons.1 hm with hm1 | hm2
          · subst hm1; exact ⟨le_refl _, hbeglt⟩
          · have := msgsChainFrom_le end_ rest hchainrest m hm2
            exact ⟨by omega, this.2⟩
        have : m.2.1 ≤ frEnd := ht2
        omega
      · exact (containedB_iff _ _).2 ⟨t, ht', ht1, ht2⟩
    have hstack' : ∀ t ∈ stack', t.2.2.msgs = [] :=
      fun t ht => hstack t (List.mem_cons_of_mem _ ht)
    obtain ⟨out', hout', hmsgs', hlen'⟩ := ih hord' hchain0 hcont' hstack'
    rw [addMsgsLoop.eq_def]
    simp only [if_neg h, if_neg hge]
    rw [hout']
    simp only [Option.map_some']
    refine ⟨_, rfl, ?_, ?_⟩
    · rw [segMsgs_cons, hmsgs', hstack s (List.mem_cons_self _ _)]
      simp
    · have hmono : countT ((beg, end_, tx) :: rest) (s :: stack') ≤
          countT ((beg, end_, tx) :: rest) ((frBeg, frEnd, fr) :: s :: stack') := by
        refine countP_le_of_imp _ _ _ ?_
        intro m hm hland
        obtain ⟨t, ht, htx, ht1, ht2⟩ := (landsText_iff _ _).1 hland
        exact (landsText_iff _ _).2 ⟨t, List.mem_cons_of_mem _ ht, htx, ht1, ht2⟩
      simp only [List.length_cons]
      omega

/-- C3: for ordered fragments with no pre-attached messages and an
ascending list of non-overlapping message spans each contained in some
fragment's span, `_add_messages` attaches every message to exactly one
sentence (all messages appear, in order, none duplicated or dropped),
and the fragment count grows by at most 2 per message landing in a
`Text` fragment and by 0 per message landing in a `Sentence`. -/
theorem addMsgs_messages (segs : List Seg) (msgs : List MsgSpan)
    (hord : segsChainFrom 0 segs = true)
    (hchain : msgsChainFrom 0 msgs = true)
    (hcont : ∀ m ∈ msgs, containedB segs m = true)
    (hempty : ∀ s ∈ segs, s.2.2.msgs = []) :
    ∃ out, addMsgs segs msgs = some out ∧
      segMsgs out = msgs.map (fun m => m.2.2) ∧
      out.length ≤ segs.length + 2 * countT msgs segs := by
  cases segs with
  | nil =>
    cases msgs with
    | nil => exact ⟨[], rfl, rfl, by simp [countT]⟩
    | cons m rest =>
      exfalso
      have := hcont m (List.mem_cons_self _ _)
      simp [containedB] at this
  | cons s rest =>
    obtain ⟨out, hout, hmsgs, hlen⟩ := addMsgsLoop_spec s rest msgs hord hchain hcont
      (fun t ht => hempty t (List.mem_cons_of_mem _ ht))
    refine ⟨out, hout, ?_, ?_⟩
    · rw [hmsgs, hempty s (List.mem_cons_self _ _)]
      rfl
    · simp only [List.length_cons]
      omega

/-- Witness for C3 at a concrete fragment and message list. -/
theorem addMsgs_messages_witness :
    (segsChainFrom 0 [((0 : Nat), (5 : Nat), Fragment.text "01234".data),
        (5, 8, Fragment.sentence "567".data [] [])] = true) ∧
      (msgsChainFrom 0 [((1 : Nat), (2 : Nat), "m1".data), (6, 7, "m2".data)] = true) ∧
      ∃ out, addMsgs
          [(0, 5, Fragment.text "01234".data), (5, 8, Fragment.sentence "567".data [] [])]
          [(1, 2, "m1".data), (6, 7, "m2".data)] = some out ∧
        segMsgs out = [(1, 2, "m1".data), (6, 7, "m2".data)].map (fun m => m.2.2) ∧
        out.length ≤ 2 + 2 * countT [(1, 2, "m1".data), (6, 7, "m2".data)]
          [(0, 5, Fragment.text "01234".data), (5, 8, Fragment.sentence "567".data [] [])] :=
  ⟨by decide, by decide,
    addMsgs_messages
      [(0, 5, Fragment.text "01234".data), (5, 8, Fragment.sentence "567".data [] [])]
      [(1, 2, "m1".data), (6, 7, "m2".data)]
      (by decide) (by decide) (by decide) (by decide)⟩

/-! ## Theorems for claim C2 (chunk reconstruction) -/

theorem joinContents_nil : joinContents [] = [] := rfl

theorem joinContents_cons (f : Fragment) (l : List Fragment) :
    joinContents (f :: l) = f.contents ++ joinContents l := by
  simp [joinContents]

theorem joinContents_append (a b : List Fragment) :
    joinContents (a ++ b) = joinContents a ++ joinContents b := by
  simp [joinContents]

theorem withContents_contents (f : Fragment) (c : List Char) :
    (f.withContents c).contents = c := by
  cases f <;> rfl

theorem slice_glue (doc : List Char) (a b c : Nat) (hab : a ≤ b) (hbc : b ≤ c) :
    slice doc a b ++ slice doc b c = slice doc a c := by
  unfold slice
  have h1 : c - a = (b - a) + (c - b) := by omega
  rw [h1, List.take_add]
  congr 2
  rw [List.drop_drop]
  congr 1
  omega

theorem slice_take (doc : List Char) (a b c : Nat) (hab : a ≤ b) (hbc : b ≤ c) :
    (slice doc a c).take (b - a) = slice doc a b := by
  unfold slice
  rw [List.take_take]
  congr 1
  omega

theorem slice_drop (doc : List Char) (a b c : Nat) (hab : a ≤ b) :
    (slice doc a c).drop (b - a) = slice doc b c := by
  unfold slice
  rw [List.drop_take, List.drop_drop]
  have h1 : a + (b - a) = b := by omega
  have h2 : c - a - (b - a) = c - b := by omega
  rw [h1, h2]

theorem slice_of_drop (doc : List Char) (a : Nat) (pref suf : List Char)
    (h : doc.drop a = pref ++ suf) : slice doc a (a + pref.length) = pref := by
  unfold slice
  rw [h]
  have : a + pref.length - a = pref.length := by omega
  rw [this, List.take_left]

theorem slice_self (doc : List Char) (a : Nat) : slice doc a a = [] := by
  simp [slice]

theorem slice_ne_nil (doc : List Char) (a b : Nat) (hab : a < b) (hb : b ≤ doc.length) :
    slice doc a b ≠ [] := by
  unfold slice
  intro hcontra
  have := congrArg List.length hcontra
  simp only [List.length_take, List.length_drop, List.length_nil] at this
  omega

theorem padChunks_nil : padChunks [] = [] := rfl

theorem padChunks_cons (c : List Char) (cs : List (List Char)) :
    padChunks (c :: cs) = (c ++ ['\n']) ++ padChunks cs := by
  simp [padChunks]

theorem padChunks_eq_nil_iff (cs : List (List Char)) : padChunks cs = [] ↔ cs = [] := by
  cases cs with
  | nil => simp [padChunks]
  | cons c cs' => simp [padChunks]

theorem iterOffsets_eq_nil_iff (p e : Nat) (cs : List (List Char)) :
    iterOffsets p e cs = [] ↔ cs = [] := by
  cases cs with
  | nil => simp [iterOffsets]
  | cons c cs' => simp [iterOffsets]

/-- Invariant lemma for `_rebuild_chunks`' loop: if the remaining
segments exactly cover the document from `pos` and the input cursor is
consistent, the loop succeeds and produces, after the accumulated
chunks, one chunk per remaining input whose contents concatenate to the
corresponding slice of the document. -/
theorem rebuildLoop_spec (doc : List Char) :
    ∀ (segs : List Seg) (curIn : Nat × Nat × List Char)
      (ins : List (Nat × Nat × List Char)) (cur : List Fragment)
      (acc : List (List Fragment)),
      ∀ (pos : Nat) (c : List Char) (cs' : List (List Char)),
      coversB doc pos segs = true →
      curIn.1 ≤ pos → pos ≤ curIn.2.1 →
      curIn.2.1 = curIn.1 + c.length + 1 →
      ins = iterOffsets 1 curIn.2.1 cs' →
      doc.drop curIn.1 = (c ++ ['\n']) ++ padChunks cs' →
      ∃ t0 trest,
        rebuildLoop segs curIn ins cur acc = some (acc.reverse ++ t0 :: trest) ∧
        joinContents t0 = joinContents cur.reverse ++ slice doc pos curIn.2.1 ∧
        List.Forall₂ (fun ch inp => joinContents ch = inp ++ ['\n']) trest cs' ∧
        (∀ fr ∈ t0, fr ∈ cur ∨ fr.contents ≠ []) ∧
        (∀ ch ∈ trest, ∀ fr ∈ ch, fr.contents ≠ []) := by
  intro segs curIn ins cur acc
  induction segs, curIn, ins, cur, acc using rebuildLoop.induct with
  | case1 curIn ins cur acc =>
    intro pos c cs' hcov hle1 hle2 hie hins hdrop
    simp only [coversB, decide_eq_true_eq] at hcov
    have hlen : (doc.drop curIn.1).length = c.length + 1 + (padChunks cs').length := by
      rw [hdrop]; simp; omega
    rw [List.length_drop] at hlen
    have hdl : doc.length = curIn.2.1 + (padChunks cs').length := by omega
    have hcs : cs' = [] := by
      have : (padChunks cs').length = 0 := by omega
      exact (padChunks_eq_nil_iff cs').1 (List.length_eq_zero.1 this)
    subst hcs
    refine ⟨cur.reverse, [], ?_, ?_, List.Forall₂.nil, ?_, by simp⟩
    · rw [rebuildLoop.eq_def]
      simp
    · have : pos = doc.length := hcov
      subst this
      simp [slice, List.drop_length]
    · intro fr hfr
      exact Or.inl (List.mem_reverse.1 hfr)
  | case2 ins cur acc b e snd rest inBeg inEnd snd1 h =>
    intro pos c cs' hcov hle1 hle2 hie hins hdrop
    exfalso
    simp only [coversB, Bool.and_eq_true, decide_eq_true_eq] at hcov
    obtain ⟨⟨⟨⟨hb, hbe⟩, hel⟩, hct⟩, hcv⟩ := hcov
    exact h ⟨by omega, by omega⟩
  | case3 ins cur acc b e snd rest inBeg inEnd snd1 h hle ih =>
    intro pos c cs' hcov hle1 hle2 hie hins hdrop
    simp only [coversB, Bool.and_eq_true, decide_eq_true_eq] at hcov
    obtain ⟨⟨⟨⟨hb, hbe⟩, hel⟩, hct⟩, hcv⟩ := hcov
    obtain ⟨t0, trest, heq, hj, hf, hne1, hne2⟩ :=
      ih e c cs' hcv (by simp at hle1 ⊢; omega) (by simpa using hle) hie hins hdrop
    refine ⟨t0, trest, ?_, ?_, hf, ?_, hne2⟩
    · rw [rebuildLoop.eq_def]
      simp only [if_neg h, if_pos hle]
      exact heq
    · rw [hj, List.reverse_cons, joinContents_append, joinContents_cons, joinContents_nil,
        List.append_nil, hct]
      rw [← hb, List.append_assoc, slice_glue doc b e inEnd (by omega) (by simpa using hle)]
    · intro fr hfr
      rcases hne1 fr hfr with hin | hne
      · rcases List.mem_cons.1 hin with heq' | hin'
        · subst heq'
          exact Or.inr (by rw [hct]; exact slice_ne_nil doc b e hbe hel)
        · exact Or.inl hin'
      · exact Or.inr hne
  | case4 cur acc b e snd rest inBeg inEnd snd1 h hgt =>
    intro pos c cs' hcov hle1 hle2 hie hins hdrop
    exfalso
    simp only [coversB, Bool.and_eq_true, decide_eq_true_eq] at hcov
    obtain ⟨⟨⟨⟨hb, hbe⟩, hel⟩, hct⟩, hcv⟩ := hcov
    have hcs : cs' = [] := ((iterOffsets_eq_nil_iff _ _ _).1 hins.symm)
    subst hcs
    have hlen : (doc.drop inBeg).length = c.length + 1 := by
      rw [hdrop, padChunks_nil]; simp
    rw [List.length_drop] at hlen
    simp only at hie hle2
    omega
  | case5 cur acc b e snd rest inBeg inEnd snd1 h hgt cur' seg' i ins' ih =>
    intro pos c cs' hcov hle1 hle2 hie hins hdrop
    simp only [coversB, Bool.and_eq_true, decide_eq_true_eq] at hcov
    obtain ⟨⟨⟨⟨hb, hbe⟩, hel⟩, hct⟩, hcv⟩ := hcov
    simp only at hle1 hle2 hie
    rcases cs' with _ | ⟨c2, cs''⟩
    · exfalso
      simp [iterOffsets] at hins
    have hins2 : i :: ins' = iterOffsets 1 inEnd (c2 :: cs'') := hins
    rw [iterOffsets] at hins2
    injection hins2 with hi hins'
    have hdrop0 : doc.drop inBeg = (c ++ ['\n']) ++ padChunks (c2 :: cs'') := hdrop
    have hdrop2 : doc.drop inEnd = (c2 ++ ['\n']) ++ padChunks cs'' := by
      have h1 : doc.drop inEnd = (doc.drop inBeg).drop (c.length + 1) := by
        rw [List.drop_drop]
        have harith : inBeg + (c.length + 1) = inEnd := by omega
        rw [harith]
      have h2 : c.length + 1 = (c ++ ['\n']).length := by simp
      rw [h1, hdrop0, h2, List.drop_left, padChunks_cons]
    have hlen : (doc.drop inBeg).length = (c.length + 1) + (padChunks (c2 :: cs'')).length := by
      rw [hdrop0, List.length_append, List.length_append]
      simp
    rw [List.length_drop] at hlen
    have hinEndLe : inEnd ≤ doc.length := by omega
    have hbin : b ≤ inEnd := by omega
    -- the new covering position is `inEnd` in both branches
    have hcov' : coversB doc inEnd (seg' :: rest) = true := by
      by_cases hbi : b < inEnd
      · have hseg' : seg' = (inEnd, e, snd.withContents (snd.contents.drop (inEnd - b))) := by
          simp only [seg', dif_pos hbi]
        rw [hseg']
        simp only [coversB, Bool.and_eq_true, decide_eq_true_eq]
        refine ⟨⟨⟨⟨trivial, by omega⟩, hel⟩, ?_⟩, hcv⟩
        rw [withContents_contents, hct, slice_drop doc b inEnd e (by omega)]
      · have hbeq : b = inEnd := by omega
        have hseg' : seg' = (b, e, snd) := by
          simp only [seg', dif_neg hbi]
        rw [hseg', hbeq]
        simp only [coversB, Bool.and_eq_true, decide_eq_true_eq]
        refine ⟨⟨⟨⟨trivial, by omega⟩, hel⟩, ?_⟩, hcv⟩
        rw [hct, hbeq]
    obtain ⟨t0', trest', heq', hj', hf', hne1', hne2'⟩ :=
      ih inEnd c2 cs'' hcov' (by rw [hi]) (by rw [hi]; show inEnd ≤ inEnd + c2.length + 1; omega)
        (by rw [hi]) (by rw [hi]; exact hins') (by rw [hi]; exact hdrop2)
    refine ⟨cur'.reverse, t0' :: trest', ?_, ?_, ?_, ?_, ?_⟩
    · rw [rebuildLoop.eq_def]
      simp only [if_neg h, if_neg (by omega : ¬ e ≤ inEnd)]
      show rebuildLoop (seg' :: rest) i ins' [] (cur'.reverse :: acc) = _
      rw [heq']
      congr 1
      rw [List.reverse_cons, List.append_assoc]
      rfl
    · by_cases hbi : b < inEnd
      · have hcur' : cur' = Fragment.text (snd.contents.take (inEnd - b)) :: cur := by
          simp only [cur', dif_pos hbi]
        rw [hcur', List.reverse_cons, joinContents_append, joinContents_cons, joinContents_nil,
          List.append_nil]
        show joinContents cur.reverse ++ (snd.contents.take (inEnd - b)) = _
        rw [hct, slice_take doc b inEnd e (by omega) (by omega)]
        rw [hb]
      · have hcur' : cur' = cur := by
          simp only [cur', dif_neg hbi]
        have hpe : pos = inEnd := by omega
        rw [hcur', hpe, slice_self, List.append_nil]
    · refine List.Forall₂.cons ?_ hf'
      rw [hj', List.reverse_nil, joinContents_nil, List.nil_append]
      have hs := slice_of_drop doc inEnd (c2 ++ ['\n']) (padChunks cs'') hdrop2
      rw [hi]
      show slice doc inEnd (inEnd + c2.length + 1) = c2 ++ ['\n']
      have harith : inEnd + c2.length + 1 = inEnd + (c2 ++ ['\n']).length := by
        simp only [List.length_append, List.length_cons, List.length_nil]
        omega
      rw [harith, hs]
    · intro fr hfr
      rw [List.mem_reverse] at hfr
      by_cases hbi : b < inEnd
      · have hcur' : cur' = Fragment.text (snd.contents.take (inEnd - b)) :: cur := by
          simp only [cur', dif_pos hbi]
        rw [hcur'] at hfr
        rcases List.mem_cons.1 hfr with heq2 | hin
        · subst heq2
          refine Or.inr ?_
          show snd.contents.take (inEnd - b) ≠ []
          rw [hct, slice_take doc b inEnd e (by omega) (by omega)]
          exact slice_ne_nil doc b inEnd hbi hinEndLe
        · exact Or.inl hin
      · have hcur' : cur' = cur := by
          simp only [cur', dif_neg hbi]
        rw [hcur'] at hfr
        exact Or.inl hfr
    · intro ch hch fr hfr
      rcases List.mem_cons.1 hch with heq2 | hin
      · subst heq2
        rcases hne1' fr hfr with hin' | hne
        · exact absurd hin' (List.not_mem_nil _)
        · exact hne
      · exact hne2' ch hin fr hfr

theorem stripChunk_spec (ch : List Fragment) (inp : List Char)
    (hj : joinContents ch = inp ++ ['\n'])
    (hne : ∀ fr ∈ ch, fr.contents ≠ []) :
    ∃ ch', stripChunk ch = some ch' ∧ joinContents ch' = inp := by
  rcases List.eq_nil_or_concat ch with hnil | ⟨init, last, rfl⟩
  · exfalso
    subst hnil
    simp [joinContents] at hj
  · rw [List.concat_eq_append] at hj hne ⊢
    have hlastne : last.contents ≠ [] := hne last (by simp)
    rw [joinContents_append, joinContents_cons, joinContents_nil, List.append_nil] at hj
    have hlastnl : last.contents.getLast? = some '\n' := by
      have h1 : (joinContents init ++ last.contents).getLast? = some '\n' := by
        rw [hj]
        exact List.getLast?_concat _
      rwa [List.getLast?_append_of_ne_nil _ hlastne] at h1
    refine ⟨init ++ [last.withContents last.contents.dropLast], ?_, ?_⟩
    · rw [stripChunk, List.getLast?_concat]
      show (if last.contents.getLast? = some '\n' then
          some ((init ++ [last]).dropLast ++ [last.withContents last.contents.dropLast])
        else none) = _
      rw [if_pos hlastnl, List.dropLast_concat]
    · rw [joinContents_append, joinContents_cons, joinContents_nil, List.append_nil,
        withContents_contents]
      have h2 : (joinContents init ++ last.contents).dropLast = (inp ++ ['\n']).dropLast := by
        rw [hj]
      rwa [List.dropLast_append_of_ne_nil _ hlastne, List.dropLast_concat] at h2

theorem forall₂_and_left {α β : Type} (P : α → β → Prop) (Q : α → Prop) :
    ∀ l₁ l₂, List.Forall₂ P l₁ l₂ → (∀ a ∈ l₁, Q a) →
      List.Forall₂ (fun a b => P a b ∧ Q a) l₁ l₂ := by
  intro l₁ l₂ h
  induction h with
  | nil => intro _; exact .nil
  | cons hp _ ih =>
    intro hq
    exact .cons ⟨hp, hq _ (by simp)⟩ (ih fun a ha => hq a (by simp [ha]))

theorem optMapM_strip (chs : List (List Fragment)) (inps : List (List Char))
    (hf : List.Forall₂ (fun ch inp => joinContents ch = inp ++ ['\n'] ∧
      ∀ fr ∈ ch, fr.contents ≠ []) chs inps) :
    ∃ out, optMapM stripChunk chs = some out ∧
      List.Forall₂ (fun ch inp => joinContents ch = inp) out inps := by
  induction hf with
  | nil => exact ⟨[], rfl, .nil⟩
  | cons hp _ ih =>
    obtain ⟨out, hout, hfor⟩ := ih
    obtain ⟨ch', hch', hjc⟩ := stripChunk_spec _ _ hp.1 hp.2
    refine ⟨ch' :: out, ?_, .cons hjc hfor⟩
    simp [optMapM, hch', hout]

/-- C2: for every input chunk list and every merged segment list exactly
covering the padded concatenation of the chunks, `_rebuild_chunks`
returns exactly one output chunk per input chunk, and each output
chunk's fragment contents concatenate to the original chunk string
(padding stripped back off). -/
theorem rebuildChunks_fidelity (inputs : List (List Char)) (segments : List Seg)
    (hcov : coversB (padChunks inputs) 0 segments = true) :
    ∃ out, rebuildChunks inputs segments = some out ∧
      out.length = inputs.length ∧
      List.Forall₂ (fun ch inp => joinContents ch = inp) out inputs := by
  cases inputs with
  | nil => exact ⟨[], rfl, rfl, .nil⟩
  | cons c rest =>
    have hdoclen : 0 < (padChunks (c :: rest)).length := by
      rw [padChunks_cons]
      simp
    cases segments with
    | nil =>
      exfalso
      simp only [coversB, decide_eq_true_eq] at hcov
      omega
    | cons sg segs =>
      obtain ⟨t0, trest, heq, hj, hf, hne1, hne2⟩ :=
        rebuildLoop_spec (padChunks (c :: rest)) (sg :: segs) (0, 0 + c.length + 1, c)
          (iterOffsets 1 (0 + c.length + 1) rest) [] [] 0 c rest hcov
          (by simp) (by simp) (by simp) rfl
          (by rw [List.drop_zero]; exact padChunks_cons c rest)
      rw [List.reverse_nil, List.nil_append] at heq
      have hrc : rebuildChunks (c :: rest) (sg :: segs) = optMapM stripChunk (t0 :: trest) := by
        show (match rebuildLoop (sg :: segs) (0, 0 + c.length + 1, c)
            (iterOffsets 1 (0 + c.length + 1) rest) [] [] with
          | some chunks => optMapM stripChunk chunks
          | none => none) = _
        rw [heq]
      have hj0 : joinContents t0 = c ++ ['\n'] := by
        rw [hj, List.reverse_nil, joinContents_nil, List.nil_append]
        have hs := slice_of_drop (padChunks (c :: rest)) 0 (c ++ ['\n']) (padChunks rest)
          (by rw [List.drop_zero]; exact padChunks_cons c rest)
        have harith : (0 : Nat) + c.length + 1 = 0 + (c ++ ['\n']).length := by
          simp only [List.length_append, List.length_cons, List.length_nil]
          omega
        rw [harith, hs]
      have hcomb : List.Forall₂ (fun ch inp => joinContents ch = inp ++ ['\n'] ∧
          ∀ fr ∈ ch, fr.contents ≠ []) (t0 :: trest) (c :: rest) := by
        refine .cons ⟨hj0, ?_⟩ (forall₂_and_left _ _ _ _ hf (fun ch hch fr hfr => hne2 ch hch fr hfr))
        · intro fr hfr
          rcases hne1 fr hfr with hin | hne
          · exact absurd hin (List.not_mem_nil _)
          · exact hne
      obtain ⟨out, hout, hfor⟩ := optMapM_strip _ _ hcomb
      refine ⟨out, ?_, ?_, hfor⟩
      · rw [hrc, hout]
      · have h1 := hfor.length_eq
        simpa using h1

/-- Witness for C2 at a concrete chunk list and exact cover. -/
theorem rebuildChunks_fidelity_witness :
    (coversB (padChunks ["ab".data, "cd".data]) 0
      [(0, 3, Fragment.text "ab\n".data), (3, 6, Fragment.sentence "cd\n".data [] [])] = true) ∧
      ∃ out, rebuildChunks ["ab".data, "cd".data]
          [(0, 3, Fragment.text "ab\n".data), (3, 6, Fragment.sentence "cd\n".data [] [])] =
            some out ∧
        out.length = (["ab".data, "cd".data]).length ∧
        List.Forall₂ (fun ch inp => joinContents ch = inp) out ["ab".data, "cd".data] :=
  ⟨by decide,
    rebuildChunks_fidelity ["ab".data, "cd".data]
      [(0, 3, Fragment.text "ab\n".data), (3, 6, Fragment.sentence "cd\n".data [] [])]
      (by decide)⟩

/-- Witness for the amended C5. -/
theorem addMsgs_overflow_errors_witness :
    ([((0 : Nat), (3 : Nat), Fragment.text "abc".data)] ≠ []) ∧
      ((5, 6, "oops".data) ∈ [((5 : Nat), (6 : Nat), "oops".data)]) ∧
      (∀ s ∈ [((0 : Nat), (3 : Nat), Fragment.text "abc".data)], s.2.1 ≤ 5) ∧
      addMsgs [(0, 3, Fragment.text "abc".data)] [(5, 6, "oops".data)] = none :=
  ⟨by simp, by simp, by decide,
    addMsgs_overflow_errors [(0, 3, Fragment.text "abc".data)] [(5, 6, "oops".data)]
      5 6 "oops".data (by simp) (by simp) (by decide)⟩

/-! ## Theorems for claim C6 (serializer round-trips): `PlainSerializer` -/

theorem WFvList_mem (xs : List Val) (h : WFvList xs = true) : ∀ x ∈ xs, WFv x = true := by
  induction xs with
  | nil => simp
  | cons y ys ih =>
    simp only [WFvList, Bool.and_eq_true] at h
    intro x hx
    rcases List.mem_cons.1 hx with heq | hx'
    · subst heq; exact h.1
    · exact ih h.2 x hx'

theorem WFvKVs_mem (kvs : List (String × Val)) (h : WFvKVs kvs = true) :
    ∀ p ∈ kvs, WFv p.2 = true := by
  induction kvs with
  | nil => simp
  | cons q qs ih =>
    rcases q with ⟨k, v⟩
    simp only [WFvKVs, Bool.and_eq_true] at h
    intro p hp
    rcases List.mem_cons.1 hp with heq | hp'
    · subst heq; exact h.1
    · exact ih h.2 p hp'

theorem fields_nodup (t : RecType) : t.fields.Nodup := by
  cases t <;> decide

theorem aliasToType_toAlias (t : RecType) : aliasToType t.toAlias = some t := by
  cases t <;> rfl

theorem toAlias_truthy (t : RecType) : (Val.vstr t.toAlias).truthy = true := by
  cases t <;> decide

theorem optMapM_congr (f g : α → Option β) (l : List α) (h : ∀ x ∈ l, f x = g x) :
    optMapM f l = optMapM g l := by
  induction l with
  | nil => rfl
  | cons x xs ih =>
    simp only [optMapM]
    rw [h x (by simp), ih (fun y hy => h y (by simp [hy]))]

theorem optMapM_dlookup_zip (ks : List String) (es : List Val)
    (hnd : ks.Nodup) (hlen : es.length = ks.length) :
    optMapM (fun f => dlookup (ks.zip es) f) ks = some es := by
  induction ks generalizing es with
  | nil =>
    cases es with
    | nil => rfl
    | cons e es => simp at hlen
  | cons k ks ih =>
    cases es with
    | nil => simp at hlen
    | cons e es =>
      simp only [List.zip_cons_cons, optMapM]
      rw [show dlookup ((k, e) :: ks.zip es) k = some e by simp [dlookup]]
      rw [optMapM_congr _ (fun f => dlookup (ks.zip es) f) ks ?_]
      · rw [ih es (List.Nodup.of_cons hnd) (by simpa using hlen)]
      · intro x hx
        have hne : x ≠ k := by
          intro hc
          subst hc
          exact (List.nodup_cons.1 hnd).1 hx
        simp [dlookup, Ne.symm hne]

theorem mkRecord_zip (t : RecType) (es : List Val) (h : es.length = t.fields.length) :
    mkRecord t (t.fields.zip es) = some (.vrec t es) := by
  unfold mkRecord
  have hmap : (t.fields.zip es).map Prod.fst = t.fields :=
    List.map_fst_zip _ _ (by omega)
  rw [if_pos ⟨by rw [List.length_zip]; omega, by rw [hmap]; exact fields_nodup t⟩]
  rw [optMapM_dlookup_zip t.fields es (fields_nodup t) h]
  rfl

theorem pyPop_not_mem (kvs : List (String × Val)) (k : String)
    (h : hasKey kvs k = false) : pyPop kvs k = (none, kvs) := by
  induction kvs with
  | nil => rfl
  | cons q qs ih =>
    rcases q with ⟨k2, v⟩
    simp only [hasKey, List.any_cons, Bool.or_eq_false_iff, beq_eq_false_iff_ne] at h
    simp only [pyPop, if_neg h.1]
    rw [ih (by simp [hasKey, h.2])]

theorem plainEncodeList_length (xs ys : List Val) (h : plainEncodeList xs = some ys) :
    ys.length = xs.length := by
  induction xs generalizing ys with
  | nil =>
    simp only [plainEncodeList, Option.some.injEq] at h
    simp [← h]
  | cons x xs ih =>
    simp only [plainEncodeList] at h
    cases h1 : plainEncode x <;> rw [h1] at h
    · exact absurd h (by simp)
    · cases h2 : plainEncodeList xs <;> rw [h2] at h
      · exact absurd h (by simp)
      · simp only [Option.some.injEq] at h
        simp [← h, ih _ h2]

theorem plainDecodeKVs_zip (ks : List String) (ys xs : List Val)
    (h : plainDecodeList ys = some xs) :
    plainDecodeKVs (ks.zip ys) = some (ks.zip xs) := by
  induction ks generalizing ys xs with
  | nil => rfl
  | cons k ks ih =>
    cases ys with
    | nil =>
      simp only [plainDecodeList, Option.some.injEq] at h
      subst h
      rfl
    | cons y ys =>
      simp only [plainDecodeList] at h
      cases h1 : plainDecode y <;> rw [h1] at h
      · exact absurd h (by simp)
      · cases h2 : plainDecodeList ys <;> rw [h2] at h
        · exact absurd h (by simp)
        · simp only [Option.some.injEq] at h
          subst h
          show plainDecodeKVs ((k, y) :: ks.zip ys) = _
          simp only [plainDecodeKVs, h1, ih ys _ h2]
          rfl

theorem plainList_rt (xs : List Val)
    (ih : ∀ x ∈ xs, ∃ y, plainEncode x = some y ∧ plainDecode y = some x) :
    ∃ ys, plainEncodeList xs = some ys ∧ plainDecodeList ys = some xs := by
  induction xs with
  | nil => exact ⟨[], rfl, rfl⟩
  | cons x xs ihl =>
    obtain ⟨y, hy, hyd⟩ := ih x (by simp)
    obtain ⟨ys, hys, hysd⟩ := ihl (fun z hz => ih z (by simp [hz]))
    exact ⟨y :: ys, by simp [plainEncodeList, hy, hys], by simp [plainDecodeList, hyd, hysd]⟩

theorem plainKVs_rt (kvs : List (String × Val))
    (ih : ∀ p ∈ kvs, ∃ y, plainEncode p.2 = some y ∧ plainDecode y = some p.2) :
    ∃ ws, plainEncodeKVs kvs = some ws ∧ plainDecodeKVs ws = some kvs := by
  induction kvs with
  | nil => exact ⟨[], rfl, rfl⟩
  | cons q qs ihl =>
    rcases q with ⟨k, v⟩
    obtain ⟨y, hy, hyd⟩ := ih (k, v) (by simp)
    obtain ⟨ws, hws, hwsd⟩ := ihl (fun z hz => ih z (by simp [hz]))
    exact ⟨(k, y) :: ws, by simp [plainEncodeKVs, hy, hws], by simp [plainDecodeKVs, hyd, hwsd]⟩

theorem plain_rt_aux : ∀ (n : Nat) (v : Val), vsize v ≤ n → WFv v = true →
    ∃ y, plainEncode v = some y ∧ plainDecode y = some v := by
  intro n
  induction n with
  | zero =>
    intro v hv
    have := vsize_pos v
    omega
  | succ n ih =>
    intro v hv hwf
    cases v with
    | vnull => exact ⟨.vnull, rfl, rfl⟩
    | vint m => exact ⟨.vint m, rfl, rfl⟩
    | vstr s => exact ⟨.vstr s, rfl, rfl⟩
    | vlist xs =>
      obtain ⟨ys, hys, hysd⟩ := plainList_rt xs (fun x hx => ih x
        (by have := vsize_le_of_mem xs x hx; simp [vsize] at hv; omega)
        (WFvList_mem xs (by simpa [WFv] using hwf) x hx))
      exact ⟨.vlist ys, by simp [plainEncode, hys], by simp [plainDecode, hysd]⟩
    | vdict kvs =>
      simp only [WFv, Bool.and_eq_true, Bool.not_eq_true', decide_eq_true_eq] at hwf
      obtain ⟨⟨⟨⟨hnt, _⟩, _⟩, hnd⟩, hvals⟩ := hwf
      obtain ⟨ws, hws, hwsd⟩ := plainKVs_rt kvs (fun p hp => ih p.2
        (by have := vsize_le_of_memKV kvs p hp; simp [vsize] at hv; omega)
        (WFvKVs_mem kvs hvals p hp))
      refine ⟨.vdict ws, by simp [plainEncode, hnt, hws], ?_⟩
      simp only [plainDecode, hwsd]
      rw [pyPop_not_mem kvs "_type" hnt]
    | vrec t fs =>
      simp only [WFv, Bool.and_eq_true, decide_eq_true_eq] at hwf
      obtain ⟨hlen, hfs⟩ := hwf
      obtain ⟨es, hes, hesd⟩ := plainList_rt fs (fun x hx => ih x
        (by have := vsize_le_of_mem fs x hx; simp [vsize] at hv; omega)
        (WFvList_mem fs hfs x hx))
      have heslen : es.length = t.fields.length := by
        rw [plainEncodeList_length fs es hes, hlen]
      refine ⟨.vdict (("_type", .vstr t.toAlias) :: t.fields.zip es),
        by simp [plainEncode, hes], ?_⟩
      have hdec : plainDecodeKVs (("_type", Val.vstr t.toAlias) :: t.fields.zip es) =
          some (("_type", Val.vstr t.toAlias) :: t.fields.zip fs) := by
        simp only [plainDecodeKVs, plainDecode, plainDecodeKVs_zip t.fields es fs hesd]
      have hpop : pyPop (("_type", Val.vstr t.toAlias) :: t.fields.zip fs) "_type" =
          (some (Val.vstr t.toAlias), t.fields.zip fs) := by
        simp [pyPop]
      simp only [plainDecode, hdec, hpop]
      rw [if_pos (toAlias_truthy t)]
      simp only [aliasToType_toAlias]
      exact mkRecord_zip t fs hlen

/-- `PlainSerializer` round-trip on well-formed values. -/
theorem plain_rt (v : Val) (hwf : WFv v = true) :
    ∃ y, plainEncode v = some y ∧ plainDecode y = some v :=
  plain_rt_aux (vsize v) v (le_refl _) hwf

/-! ## Deduplicating serializer round-trip lemmas -/

theorem mem_insertKV (p q : String × Val) (l : List (String × Val)) :
    q ∈ insertKV p l ↔ q = p ∨ q ∈ l := by
  induction l with
  | nil => simp [insertKV]
  | cons r rs ih =>
    simp only [insertKV]
    split
    · simp [or_comm, or_assoc, or_left_comm]
    · simp only [List.mem_cons, ih]
      tauto

theorem mem_sortKVs (q : String × Val) (l : List (String × Val)) :
    q ∈ sortKVs l ↔ q ∈ l := by
  induction l with
  | nil => simp [sortKVs]
  | cons r rs ih =>
    show q ∈ insertKV r (sortKVs rs) ↔ _
    rw [mem_insertKV]
    simp [ih]

theorem keysSorted_insertKV (p : String × Val) (l : List (String × Val))
    (h : keysSorted l) : keysSorted (insertKV p l) := by
  unfold keysSorted at *
  rw [List.chain'_iff_pairwise] at *
  induction l with
  | nil => simp [insertKV]
  | cons q qs ih =>
    simp only [List.map_cons, List.pairwise_cons] at h
    obtain ⟨hq, hqs⟩ := h
    simp only [insertKV]
    split
    · rename_i hle
      simp only [List.map_cons, List.pairwise_cons]
      refine ⟨?_, hq, hqs⟩
      intro b hb
      simp only [List.mem_cons] at hb
      rcases hb with heq | hmem
      · subst heq; exact hle
      · exact le_trans hle (hq b hmem)
    · rename_i hgt
      have hple : q.1 ≤ p.1 := le_of_not_le hgt
      have hrest := ih hqs
      simp only [List.map_cons, List.pairwise_cons]
      refine ⟨?_, hrest⟩
      intro b hb
      rw [List.mem_map] at hb
      obtain ⟨x, hx, rfl⟩ := hb
      rcases (mem_insertKV p x qs).1 hx with heq | horig
      · subst heq; exact hple
      · exact hq x.1 (List.mem_map_of_mem _ horig)

theorem keysSorted_sortKVs (l : List (String × Val)) : keysSorted (sortKVs l) := by
  induction l with
  | nil => simp [sortKVs, keysSorted]
  | cons q qs ih => exact keysSorted_insertKV q (sortKVs qs) ih

theorem sortKVs_eq_self (l : List (String × Val)) (h : keysSorted l) :
    sortKVs l = l := by
  induction l with
  | nil => rfl
  | cons q qs ih =>
    have h2 : keysSorted qs := by
      unfold keysSorted at h ⊢
      rcases qs with _ | ⟨r, rs⟩
      · simp
      · simpa [List.map_cons, List.chain'_cons] using
          (List.chain'_cons.1 (by simpa [List.map_cons] using h)).2
    show insertKV q (sortKVs qs) = q :: qs
    rw [ih h2]
    rcases qs with _ | ⟨r, rs⟩
    · rfl
    · unfold keysSorted at h
      simp only [List.map_cons, List.chain'_cons] at h
      simp only [insertKV, if_pos h.1]

theorem keysSorted_of_same_keys (l₁ l₂ : List (String × Val))
    (h : l₁.map Prod.fst = l₂.map Prod.fst) (hs : keysSorted l₂) : keysSorted l₁ := by
  unfold keysSorted at hs ⊢
  rw [h]
  exact hs

theorem hasKey_of_same_keys (l₁ l₂ : List (String × Val)) (k : String)
    (h : l₁.map Prod.fst = l₂.map Prod.fst) : hasKey l₁ k = hasKey l₂ k := by
  have h1 : ∀ (l : List (String × Val)),
      hasKey l k = (l.map Prod.fst).any (fun s => s == k) := by
    intro l
    induction l with
    | nil => rfl
    | cons q qs ih =>
      simp only [hasKey, List.any_cons] at ih ⊢
      rw [List.map_cons, List.any_cons, ← ih]
  rw [h1, h1, h]

theorem hasKey_sortKVs (l : List (String × Val)) (k : String) :
    hasKey (sortKVs l) k = hasKey l k := by
  unfold hasKey
  rw [List.any_eq, List.any_eq]
  simp only [decide_eq_decide]
  constructor
  · rintro ⟨p, hp, hpk⟩
    exact ⟨p, (mem_sortKVs p l).1 hp, hpk⟩
  · rintro ⟨p, hp, hpk⟩
    exact ⟨p, (mem_sortKVs p l).2 hp, hpk⟩

theorem canonKVs_keys (l : List (String × Val)) :
    (canonKVs l).map Prod.fst = l.map Prod.fst := by
  induction l with
  | nil => rfl
  | cons q qs ih =>
    rcases q with ⟨k, v⟩
    simp only [canonKVs, List.map_cons, ih]

theorem insertKV_canon_comm (k : String) (v : Val) (l : List (String × Val)) :
    insertKV (k, canon v) (canonKVs l) = canonKVs (insertKV (k, v) l) := by
  induction l with
  | nil => rfl
  | cons q qs ih =>
    rcases q with ⟨k2, w⟩
    simp only [canonKVs, insertKV]
    split
    · rfl
    · simp only [canonKVs, ih]

theorem sortKVs_canonKVs_comm (l : List (String × Val)) :
    sortKVs (canonKVs l) = canonKVs (sortKVs l) := by
  induction l with
  | nil => rfl
  | cons q qs ih =>
    rcases q with ⟨k, v⟩
    show insertKV (k, canon v) (sortKVs (canonKVs qs)) = canonKVs (insertKV (k, v) (sortKVs qs))
    rw [ih, insertKV_canon_comm]

theorem canonList_length (xs : List Val) : (canonList xs).length = xs.length := by
  induction xs with
  | nil => rfl
  | cons x xs ih => simp [canonList, ih]

theorem tIndexOf_get? (T : List Val) (v : Val) (i : Nat)
    (h : tIndexOf T v = some i) : T.get? i = some v := by
  induction T generalizing i with
  | nil => simp [tIndexOf] at h
  | cons x xs ih =>
    simp only [tIndexOf] at h
    split at h
    · rename_i heq
      cases h
      simp [heq]
    · cases hi : tIndexOf xs v <;> rw [hi] at h
      · exact absurd h (by simp)
      · simp only [Option.map_some', Option.some.injEq] at h
        subst h
        simpa using ih _ hi

theorem pyIndex_nat (T : List Val) (i : Nat) : pyIndex T (i : Int) = T.get? i := by
  unfold pyIndex
  rw [if_pos (by omega)]
  simp


theorem WFvKVs_of_mem (kvs : List (String × Val))
    (h : ∀ p ∈ kvs, WFv p.2 = true) : WFvKVs kvs = true := by
  induction kvs with
  | nil => rfl
  | cons q qs ih =>
    rcases q with ⟨k, v⟩
    simp only [WFvKVs, Bool.and_eq_true]
    exact ⟨h (k, v) (by simp), ih (fun p hp => h p (by simp [hp]))⟩

theorem sortKVs_sortKVs (l : List (String × Val)) : sortKVs (sortKVs l) = sortKVs l :=
  sortKVs_eq_self _ (keysSorted_sortKVs l)

theorem canonList_idem_of (xs : List Val) (h : ∀ x ∈ xs, canon (canon x) = canon x) :
    canonList (canonList xs) = canonList xs := by
  induction xs with
  | nil => rfl
  | cons x xs ih =>
    simp only [canonList, List.cons.injEq]
    exact ⟨h x (by simp), ih (fun y hy => h y (by simp [hy]))⟩

theorem canonKVs_idem_of (l : List (String × Val))
    (h : ∀ p ∈ l, canon (canon p.2) = canon p.2) :
    canonKVs (canonKVs l) = canonKVs l := by
  induction l with
  | nil => rfl
  | cons q qs ih =>
    rcases q with ⟨k, v⟩
    simp only [canonKVs, List.cons.injEq, Prod.mk.injEq]
    exact ⟨⟨trivial, h (k, v) (by simp)⟩, ih (fun p hp => h p (by simp [hp]))⟩

theorem canon_canon_aux : ∀ (n : Nat) (v : Val), vsize v ≤ n →
    canon (canon v) = canon v := by
  intro n
  induction n with
  | zero => intro v hv; have := vsize_pos v; omega
  | succ n ih =>
    intro v hv
    cases v with
    | vnull => rfl
    | vint m => rfl
    | vstr s => rfl
    | vlist xs =>
      simp only [canon]
      rw [canonList_idem_of xs (fun x hx => ih x
        (by have := vsize_le_of_mem xs x hx; simp [vsize] at hv; omega))]
    | vdict kvs =>
      simp only [canon]
      rw [← sortKVs_canonKVs_comm (canonKVs kvs)]
      rw [canonKVs_idem_of kvs (fun p hp => ih p.2
        (by have := vsize_le_of_memKV kvs p hp; simp [vsize] at hv; omega))]
      rw [sortKVs_sortKVs]
    | vrec t fs =>
      simp only [canon]
      rw [canonList_idem_of fs (fun x hx => ih x
        (by have := vsize_le_of_mem fs x hx; simp [vsize] at hv; omega))]

theorem canon_canon (v : Val) : canon (canon v) = canon v :=
  canon_canon_aux (vsize v) v (le_refl _)


theorem dList_rt (xs : List Val)
    (hP : ∀ x ∈ xs, ∀ encT : List Val, ∃ j encT', dEnc x encT = some (j, encT') ∧
      dDec j (encT.map canon) = some (canon x, encT'.map canon)) :
    ∀ encT : List Val, ∃ ys encT', dEncList xs encT = some (ys, encT') ∧
      dDecList ys (encT.map canon) = some (canonList xs, encT'.map canon) := by
  induction xs with
  | nil => intro encT; exact ⟨[], encT, by simp [dEncList], by simp [dDecList, canonList]⟩
  | cons x xs ih =>
    intro encT
    obtain ⟨j, T1, hj, hjd⟩ := hP x (by simp) encT
    obtain ⟨ys, T2, hys, hysd⟩ := ih (fun z hz => hP z (by simp [hz])) T1
    refine ⟨j :: ys, T2, ?_, ?_⟩
    · simp only [dEncList, hj, hys]
    · simp only [dDecList, hjd, hysd, canonList]

theorem dKVs_rt (kvs : List (String × Val))
    (hP : ∀ p ∈ kvs, ∀ encT : List Val, ∃ j encT', dEnc p.2 encT = some (j, encT') ∧
      dDec j (encT.map canon) = some (canon p.2, encT'.map canon)) :
    ∀ encT : List Val, ∃ ws encT', dEncKVs kvs encT = some (ws, encT') ∧
      ws.map Prod.fst = kvs.map Prod.fst ∧
      dDecKVs ws (encT.map canon) = some (canonKVs kvs, encT'.map canon) := by
  induction kvs with
  | nil => intro encT; exact ⟨[], encT, by simp [dEncKVs], rfl, by simp [dDecKVs, canonKVs]⟩
  | cons q qs ih =>
    rcases q with ⟨k, v⟩
    intro encT
    obtain ⟨j, T1, hj, hjd⟩ := hP (k, v) (by simp) encT
    obtain ⟨ws, T2, hws, hkeys, hwsd⟩ := ih (fun p hp => hP p (by simp [hp])) T1
    refine ⟨(k, j) :: ws, T2, ?_, ?_, ?_⟩
    · simp only [dEncKVs, hj, hws]
    · simp [hkeys]
    · simp only [dDecKVs, hjd, hwsd, canonKVs]

theorem dedup_rt_aux : ∀ (n : Nat) (v : Val), vsize v ≤ n → WFv v = true →
    ∀ encT : List Val, ∃ j encT', dEnc v encT = some (j, encT') ∧
      dDec j (encT.map canon) = some (canon v, encT'.map canon) := by
  intro n
  induction n with
  | zero => intro v hv; have := vsize_pos v; omega
  | succ n ih =>
    intro v hv hwf encT
    cases v with
    | vnull => exact ⟨.vnull, encT, by simp [dEnc], by simp [dDec, canon]⟩
    | vint m => exact ⟨.vint m, encT, by simp [dEnc], by simp [dDec, canon]⟩
    | vstr s => exact ⟨.vstr s, encT, by simp [dEnc], by simp [dDec, canon]⟩
    | vlist xs =>
      have hwl : WFvList xs = true := by simpa [WFv] using hwf
      obtain ⟨ys, T', hys, hysd⟩ := dList_rt xs
        (fun x hx => ih x (by have := vsize_le_of_mem xs x hx; simp [vsize] at hv; omega)
          (WFvList_mem xs hwl x hx)) encT
      refine ⟨.vlist ys, T', ?_, ?_⟩
      · simp only [dEnc, hys]
      · simp only [dDec, hysd, canon]
    | vdict kvs =>
      simp only [WFv, Bool.and_eq_true, Bool.not_eq_true', decide_eq_true_eq] at hwf
      obtain ⟨⟨⟨⟨hnt, hnstar⟩, hnamp⟩, hnd⟩, hvals⟩ := hwf
      obtain ⟨ws, T', hws, hkeys, hwsd⟩ := dKVs_rt (sortKVs kvs)
        (fun p hp => ih p.2
          (by have := vsize_le_of_memKV kvs p ((mem_sortKVs p kvs).1 hp)
              simp [vsize] at hv; omega)
          (WFvKVs_mem kvs hvals p ((mem_sortKVs p kvs).1 hp))) encT
      refine ⟨.vdict ws, T', ?_, ?_⟩
      · simp only [dEnc, hnstar, hnamp, Bool.or_self, Bool.false_eq_true, if_false, hws]
      · have hstar : hasKey ws "*" = false := by
          rw [hasKey_of_same_keys ws (sortKVs kvs) "*" hkeys, hasKey_sortKVs]
          exact hnstar
        have hamp : hasKey ws "&" = false := by
          rw [hasKey_of_same_keys ws (sortKVs kvs) "&" hkeys, hasKey_sortKVs]
          exact hnamp
        have hself : sortKVs ws = ws :=
          sortKVs_eq_self ws
            (keysSorted_of_same_keys ws (sortKVs kvs) hkeys (keysSorted_sortKVs kvs))
        simp only [dDec, hstar, hamp, Bool.false_eq_true, if_false, hself, hwsd, canon,
          sortKVs_canonKVs_comm]
    | vrec t fs =>
      simp only [WFv, Bool.and_eq_true, decide_eq_true_eq] at hwf
      obtain ⟨hlen, hfs⟩ := hwf
      cases hidx : tIndexOf encT (.vrec t fs) with
      | some i =>
        refine ⟨.vdict [("*", .vint (i : Int))], encT, ?_, ?_⟩
        · simp only [dEnc, hidx]
        · have hgetc : (encT.map canon).get? i = some (canon (.vrec t fs)) := by
            rw [List.get?_map, tIndexOf_get? encT _ i hidx]
            rfl
          have hk : hasKey [("*", Val.vint (i : Int))] "*" = true := by
            simp [hasKey]
          have hl : dlookup [("*", Val.vint (i : Int))] "*" = some (Val.vint (i : Int)) := by
            simp [dlookup]
          simp only [dDec, hk, if_true, hl, pyIndex_nat, hgetc]
      | none =>
        obtain ⟨es, T1, hes, hesd⟩ := dList_rt fs
          (fun x hx => ih x (by have := vsize_le_of_mem fs x hx; simp [vsize] at hv; omega)
            (WFvList_mem fs hfs x hx)) encT
        refine ⟨.vdict [("&", .vstr t.toAlias), ("_", .vlist es)], T1 ++ [.vrec t fs], ?_, ?_⟩
        · simp only [dEnc, hidx, hes]
        · have hkstar : hasKey [("&", Val.vstr t.toAlias), ("_", Val.vlist es)] "*" = false := by
            simp [hasKey]
          have hkamp : hasKey [("&", Val.vstr t.toAlias), ("_", Val.vlist es)] "&" = true := by
            simp [hasKey]
          have hlamp : dlookup [("&", Val.vstr t.toAlias), ("_", Val.vlist es)] "&" =
              some (Val.vstr t.toAlias) := by
            simp [dlookup]
          have hlund : dlookup [("&", Val.vstr t.toAlias), ("_", Val.vlist es)] "_" =
              some (Val.vlist es) := by
            simp [dlookup]
          have hclen : (canonList fs).length = t.fields.length := by
            rw [canonList_length, hlen]
          simp only [dDec, hkstar, Bool.false_eq_true, if_false, hkamp, if_true, hlamp,
            aliasToType_toAlias, canon, List.map_append, List.map_cons, List.map_nil]
          split
          · rename_i args heq
            rw [hlund] at heq
            simp only [Option.some.injEq, Val.vlist.injEq] at heq
            subst heq
            rw [hesd]
            simp [hclen]
          · simp_all

theorem dedup_rt (v : Val) (hwf : WFv v = true) :
    ∃ j, dedupEncode v = some j ∧ dedupDecode j = some (canon v) := by
  obtain ⟨j, T', hj, hjd⟩ := dedup_rt_aux (vsize v) v (le_refl _) hwf []
  refine ⟨j, by simp [dedupEncode, hj], ?_⟩
  simp only [List.map_nil] at hjd
  simp [dedupDecode, hjd]


theorem fList_rt (xs : List Val)
    (hP : ∀ x ∈ xs, ∀ encT : List Val, ∃ j encT', fEnc x encT = some (j, encT') ∧
      fDec j (encT.map canon) = some (canon x, encT'.map canon)) :
    ∀ encT : List Val, ∃ ys encT', fEncList xs encT = some (ys, encT') ∧
      fDecList ys (encT.map canon) = some (canonList xs, encT'.map canon) := by
  induction xs with
  | nil => intro encT; exact ⟨[], encT, by simp [fEncList], by simp [fDecList, canonList]⟩
  | cons x xs ih =>
    intro encT
    obtain ⟨j, T1, hj, hjd⟩ := hP x (by simp) encT
    obtain ⟨ys, T2, hys, hysd⟩ := ih (fun z hz => hP z (by simp [hz])) T1
    refine ⟨j :: ys, T2, ?_, ?_⟩
    · simp only [fEncList, hj, hys]
    · simp only [fDecList, hjd, hysd, canonList]

theorem fKVs_rt (kvs : List (String × Val))
    (hP : ∀ p ∈ kvs, ∀ encT : List Val, ∃ j encT', fEnc p.2 encT = some (j, encT') ∧
      fDec j (encT.map canon) = some (canon p.2, encT'.map canon)) :
    ∀ encT : List Val, ∃ ws encT', fEncKVs kvs encT = some (ws, encT') ∧
      ws.map Prod.fst = kvs.map Prod.fst ∧
      fDecKVs ws (encT.map canon) = some (canonKVs kvs, encT'.map canon) := by
  induction kvs with
  | nil => intro encT; exact ⟨[], encT, by simp [fEncKVs], rfl, by simp [fDecKVs, canonKVs]⟩
  | cons q qs ih =>
    rcases q with ⟨k, v⟩
    intro encT
    obtain ⟨j, T1, hj, hjd⟩ := hP (k, v) (by simp) encT
    obtain ⟨ws, T2, hws, hkeys, hwsd⟩ := ih (fun p hp => hP p (by simp [hp])) T1
    refine ⟨(k, j) :: ws, T2, ?_, ?_, ?_⟩
    · simp only [fEncKVs, hj, hws]
    · simp [hkeys]
    · simp only [fDecKVs, hjd, hwsd, canonKVs]

theorem fully_rt_aux : ∀ (n : Nat) (v : Val), vsize v ≤ n → WFv v = true →
    ∀ encT : List Val, ∃ j encT', fEnc v encT = some (j, encT') ∧
      fDec j (encT.map canon) = some (canon v, encT'.map canon) := by
  intro n
  induction n with
  | zero => intro v hv; have := vsize_pos v; omega
  | succ n ih =>
    intro v hv hwf encT
    cases hidx : tIndexOf encT v with
    | some i =>
      refine ⟨.vdict [("*", .vint (i : Int))], encT, ?_, ?_⟩
      · simp only [fEnc, hidx]
      · have hgetc : (encT.map canon).get? i = some (canon v) := by
          rw [List.get?_map, tIndexOf_get? encT v i hidx]
          rfl
        have hk : hasKey [("*", Val.vint (i : Int))] "*" = true := by
          simp [hasKey]
        have hl : dlookup [("*", Val.vint (i : Int))] "*" = some (Val.vint (i : Int)) := by
          simp [dlookup]
        simp only [fDec, hk, if_true, hl, pyIndex_nat, hgetc]
    | none =>
      cases v with
      | vnull =>
        exact ⟨.vnull, encT ++ [.vnull], by simp [fEnc, hidx, fEncInner],
          by simp [fDec, fDecInner, canon]⟩
      | vint m =>
        exact ⟨.vint m, encT ++ [.vint m], by simp [fEnc, hidx, fEncInner],
          by simp [fDec, fDecInner, canon]⟩
      | vstr s =>
        exact ⟨.vstr s, encT ++ [.vstr s], by simp [fEnc, hidx, fEncInner],
          by simp [fDec, fDecInner, canon]⟩
      | vlist xs =>
        have hwl : WFvList xs = true := by simpa [WFv] using hwf
        obtain ⟨ys, T1, hys, hysd⟩ := fList_rt xs
          (fun x hx => ih x (by have := vsize_le_of_mem xs x hx; simp [vsize] at hv; omega)
            (WFvList_mem xs hwl x hx)) encT
        refine ⟨.vlist ys, T1 ++ [.vlist xs], ?_, ?_⟩
        · simp only [fEnc, hidx, fEncInner, hys]
        · have hinner : fDecInner (.vlist ys) (encT.map canon) =
              some (.vlist (canonList xs), T1.map canon) := by
            simp only [fDecInner, hysd]
          simp only [fDec, hinner, canon, List.map_append, List.map_cons, List.map_nil]
      | vdict kvs =>
        simp only [WFv, Bool.and_eq_true, Bool.not_eq_true', decide_eq_true_eq] at hwf
        obtain ⟨⟨⟨⟨hnt, hnstar⟩, hnamp⟩, hnd⟩, hvals⟩ := hwf
        obtain ⟨ws, T1, hws, hkeys, hwsd⟩ := fKVs_rt (sortKVs kvs)
          (fun p hp => ih p.2
            (by have := vsize_le_of_memKV kvs p ((mem_sortKVs p kvs).1 hp)
                simp [vsize] at hv; omega)
            (WFvKVs_mem kvs hvals p ((mem_sortKVs p kvs).1 hp))) encT
        refine ⟨.vdict ws, T1 ++ [.vdict kvs], ?_, ?_⟩
        · simp only [fEnc, hidx, fEncInner, hnstar, hnamp, Bool.or_self, Bool.false_eq_true,
            if_false, hws]
        · have hstar : hasKey ws "*" = false := by
            rw [hasKey_of_same_keys ws (sortKVs kvs) "*" hkeys, hasKey_sortKVs]
            exact hnstar
          have hamp : hasKey ws "&" = false := by
            rw [hasKey_of_same_keys ws (sortKVs kvs) "&" hkeys, hasKey_sortKVs]
            exact hnamp
          have hself : sortKVs ws = ws :=
            sortKVs_eq_self ws
              (keysSorted_of_same_keys ws (sortKVs kvs) hkeys (keysSorted_sortKVs kvs))
          have hinner : fDecInner (.vdict ws) (encT.map canon) =
              some (.vdict (canonKVs (sortKVs kvs)), T1.map canon) := by
            simp only [fDecInner, hamp, Bool.false_eq_true, if_false, hself, hwsd]
          simp only [fDec, hstar, Bool.false_eq_true, if_false, hinner, canon,
            sortKVs_canonKVs_comm, List.map_append, List.map_cons, List.map_nil]
      | vrec t fs =>
        simp only [WFv, Bool.and_eq_true, decide_eq_true_eq] at hwf
        obtain ⟨hlen, hfs⟩ := hwf
        obtain ⟨es, T1, hes, hesd⟩ := fList_rt fs
          (fun x hx => ih x (by have := vsize_le_of_mem fs x hx; simp [vsize] at hv; omega)
            (WFvList_mem fs hfs x hx)) encT
        refine ⟨.vdict [("&", .vstr t.toAlias), ("_", .vlist es)], T1 ++ [.vrec t fs], ?_, ?_⟩
        · simp only [fEnc, hidx, fEncInner, hes]
        · have hkstar : hasKey [("&", Val.vstr t.toAlias), ("_", Val.vlist es)] "*" = false := by
            simp [hasKey]
          have hkamp : hasKey [("&", Val.vstr t.toAlias), ("_", Val.vlist es)] "&" = true := by
            simp [hasKey]
          have hlamp : dlookup [("&", Val.vstr t.toAlias), ("_", Val.vlist es)] "&" =
              some (Val.vstr t.toAlias) := by
            simp [dlookup]
          have hlund : dlookup [("&", Val.vstr t.toAlias), ("_", Val.vlist es)] "_" =
              some (Val.vlist es) := by
            simp [dlookup]
          have hclen : (canonList fs).length = t.fields.length := by
            rw [canonList_length, hlen]
          have hinner : fDecInner (.vdict [("&", Val.vstr t.toAlias), ("_", Val.vlist es)])
              (encT.map canon) = some (.vrec t (canonList fs), T1.map canon) := by
            simp only [fDecInner, hkamp, if_true, hlamp, aliasToType_toAlias]
            split
            · rename_i args heq
              rw [hlund] at heq
              simp only [Option.some.injEq, Val.vlist.injEq] at heq
              subst heq
              rw [hesd]
              simp [hclen]
            · simp_all
          simp only [fDec, hkstar, Bool.false_eq_true, if_false, hinner, canon,
            List.map_append, List.map_cons, List.map_nil]

theorem fully_rt (v : Val) (hwf : WFv v = true) :
    ∃ j, fullyEncode v = some j ∧ fullyDecode j = some (canon v) := by
  obtain ⟨j, T', hj, hjd⟩ := fully_rt_aux (vsize v) v (le_refl _) hwf []
  refine ⟨j, by simp [fullyEncode, hj], ?_⟩
  simp only [List.map_nil] at hjd
  simp [fullyDecode, hjd]


/-! ## Frame lemmas: the decoders never mutate their input -/

theorem dlookup_mem (l : List (String × Val)) (k : String) (u : Val)
    (h : dlookup l k = some u) : (k, u) ∈ l := by
  induction l with
  | nil => simp [dlookup] at h
  | cons q qs ih =>
    rcases q with ⟨k2, w⟩
    simp only [dlookup] at h
    split at h
    · rename_i heq
      cases h
      subst heq
      simp
    · exact List.mem_cons_of_mem _ (ih h)

theorem mem_nodup_unique (l : List (String × Val)) (k : String) (u w : Val)
    (hnd : (l.map Prod.fst).Nodup) (hu : (k, u) ∈ l) (hw : (k, w) ∈ l) : u = w := by
  induction l with
  | nil => simp at hu
  | cons q qs ih =>
    rcases q with ⟨k2, x⟩
    simp only [List.map_cons, List.nodup_cons] at hnd
    rcases List.mem_cons.1 hu with hequ | hu'
    · rcases List.mem_cons.1 hw with heqw | hw'
      · cases hequ
        cases heqw
        rfl
      · cases hequ
        exact absurd (List.mem_map_of_mem Prod.fst hw') hnd.1
    · rcases List.mem_cons.1 hw with heqw | hw'
      · cases heqw
        exact absurd (List.mem_map_of_mem Prod.fst hu') hnd.1
      · exact ih hnd.2 hu' hw'

theorem substPost_id (post kvs : List (String × Val))
    (h : ∀ k w, (k, w) ∈ kvs → ∀ u, dlookup post k = some u → u = w) :
    substPost post kvs = kvs := by
  induction kvs with
  | nil => rfl
  | cons q qs ih =>
    rcases q with ⟨k, w⟩
    simp only [substPost, List.map_cons, List.cons.injEq]
    constructor
    · cases hl : dlookup post k with
      | none => simp
      | some u => simp [h k w (by simp) u hl]
    · exact ih (fun k2 w2 hm u hl => h k2 w2 (by simp [hm]) u hl)

theorem nodupKeysList_mem (xs : List Val) (h : nodupKeysList xs = true) :
    ∀ x ∈ xs, nodupKeys x = true := by
  induction xs with
  | nil => simp
  | cons y ys ih =>
    simp only [nodupKeysList, Bool.and_eq_true] at h
    intro x hx
    rcases List.mem_cons.1 hx with heq | hx'
    · subst heq; exact h.1
    · exact ih h.2 x hx'

theorem nodupKeysKVs_mem (kvs : List (String × Val)) (h : nodupKeysKVs kvs = true) :
    ∀ p ∈ kvs, nodupKeys p.2 = true := by
  induction kvs with
  | nil => simp
  | cons q qs ih =>
    rcases q with ⟨k, v⟩
    simp only [nodupKeysKVs, Bool.and_eq_true] at h
    intro p hp
    rcases List.mem_cons.1 hp with heq | hp'
    · subst heq; exact h.1
    · exact ih h.2 p hp'

theorem plainDecodeListM_post (xs : List Val)
    (hP : ∀ x ∈ xs, ∀ r x', plainDecodeM x = some (r, x') → x' = x) :
    ∀ ys xs', plainDecodeListM xs = some (ys, xs') → xs' = xs := by
  induction xs with
  | nil =>
    intro ys xs' h
    simp only [plainDecodeListM, Option.some.injEq, Prod.mk.injEq] at h
    exact h.2.symm
  | cons x xs ih =>
    intro ys xs' h
    simp only [plainDecodeListM] at h
    cases h1 : plainDecodeM x <;> rw [h1] at h
    · exact absurd h (by simp)
    · rename_i p
      rcases p with ⟨y, x1⟩
      cases h2 : plainDecodeListM xs <;> rw [h2] at h
      · exact absurd h (by simp)
      · rename_i q
        rcases q with ⟨ys2, xs2⟩
        simp only [Option.some.injEq, Prod.mk.injEq] at h
        rw [← h.2]
        rw [hP x (by simp) y x1 h1,
          ih (fun z hz => hP z (by simp [hz])) ys2 xs2 h2]
  

theorem plainDecodeKVsM_post (kvs : List (String × Val))
    (hP : ∀ p ∈ kvs, ∀ r x', plainDecodeM p.2 = some (r, x') → x' = p.2) :
    ∀ ws kvs', plainDecodeKVsM kvs = some (ws, kvs') → kvs' = kvs := by
  induction kvs with
  | nil =>
    intro ws kvs' h
    simp only [plainDecodeKVsM, Option.some.injEq, Prod.mk.injEq] at h
    exact h.2.symm
  | cons q qs ih =>
    rcases q with ⟨k, v⟩
    intro ws kvs' h
    simp only [plainDecodeKVsM] at h
    cases h1 : plainDecodeM v <;> rw [h1] at h
    · exact absurd h (by simp)
    · rename_i p
      rcases p with ⟨w, v1⟩
      cases h2 : plainDecodeKVsM qs <;> rw [h2] at h
      · exact absurd h (by simp)
      · rename_i q2
        rcases q2 with ⟨ws2, qs2⟩
        simp only [Option.some.injEq, Prod.mk.injEq] at h
        rw [← h.2]
        rw [hP (k, v) (by simp) w v1 h1,
          ih (fun z hz => hP z (by simp [hz])) ws2 qs2 h2]

theorem plainM_post_aux : ∀ (n : Nat) (v : Val), vsize v ≤ n →
    ∀ r v', plainDecodeM v = some (r, v') → v' = v := by
  intro n
  induction n with
  | zero => intro v hv; have := vsize_pos v; omega
  | succ n ih =>
    intro v hv r v' h
    cases v with
    | vnull => simp only [plainDecodeM, Option.some.injEq, Prod.mk.injEq] at h; exact h.2.symm
    | vint m => simp only [plainDecodeM, Option.some.injEq, Prod.mk.injEq] at h; exact h.2.symm
    | vstr s => simp only [plainDecodeM, Option.some.injEq, Prod.mk.injEq] at h; exact h.2.symm
    | vlist xs =>
      simp only [plainDecodeM] at h
      cases h1 : plainDecodeListM xs <;> rw [h1] at h
      · exact absurd h (by simp)
      · rename_i p
        rcases p with ⟨ys, xs'⟩
        simp only [Option.some.injEq, Prod.mk.injEq] at h
        rw [← h.2]
        rw [plainDecodeListM_post xs
          (fun x hx => ih x (by have := vsize_le_of_mem xs x hx; simp [vsize] at hv; omega))
          ys xs' h1]
    | vdict kvs =>
      simp only [plainDecodeM] at h
      split at h
      · exact absurd h (by simp)
      · rename_i obj kvs2 heq
        have hkvs : kvs2 = kvs := plainDecodeKVsM_post kvs
          (fun q hq => ih q.2
            (by have := vsize_le_of_memKV kvs q hq; simp [vsize] at hv; omega))
          obj kvs2 heq
        subst hkvs
        split at h
        · split at h
          · split at h
            · split at h
              · simp only [Option.map_eq_some'] at h
                obtain ⟨w, hw, hp⟩ := h
                simp only [Prod.mk.injEq] at hp
                exact hp.2.symm
              · exact absurd h (by simp)
            · exact absurd h (by simp)
          · simp only [Option.some.injEq, Prod.mk.injEq] at h
            exact h.2.symm
        · simp only [Option.some.injEq, Prod.mk.injEq] at h
          exact h.2.symm
    | vrec t fs =>
      simp only [plainDecodeM, Option.some.injEq, Prod.mk.injEq] at h
      exact h.2.symm
  

theorem dDecListM_post (xs : List Val)
    (hP : ∀ x ∈ xs, ∀ (T : List Val) r x' T', dDecM x T = some (r, x', T') → x' = x) :
    ∀ (T : List Val) ys xs' T', dDecListM xs T = some (ys, xs', T') → xs' = xs := by
  induction xs with
  | nil =>
    intro T ys xs' T' h
    simp only [dDecListM, Option.some.injEq, Prod.mk.injEq] at h
    exact h.2.1.symm
  | cons x xs ih =>
    intro T ys xs' T' h
    simp only [dDecListM] at h
    split at h
    · rename_i y x1 T1 hx
      split at h
      · rename_i ys2 xs2 T2 hxs
        simp only [Option.some.injEq, Prod.mk.injEq] at h
        rw [← h.2.1]
        rw [hP x (by simp) T y x1 T1 hx,
          ih (fun z hz => hP z (by simp [hz])) T1 ys2 xs2 T2 hxs]
      · exact absurd h (by simp)
    · exact absurd h (by simp)

theorem dDecKVsM_post (kvs : List (String × Val))
    (hP : ∀ p ∈ kvs, ∀ (T : List Val) r x' T', dDecM p.2 T = some (r, x', T') → x' = p.2) :
    ∀ (T : List Val) ws post T', dDecKVsM kvs T = some (ws, post, T') → post = kvs := by
  induction kvs with
  | nil =>
    intro T ws post T' h
    simp only [dDecKVsM, Option.some.injEq, Prod.mk.injEq] at h
    exact h.2.1.symm
  | cons q qs ih =>
    rcases q with ⟨k, v⟩
    intro T ws post T' h
    simp only [dDecKVsM] at h
    split at h
    · rename_i w v1 T1 hw
      split at h
      · rename_i ws2 rest2 T2 hrest
        simp only [Option.some.injEq, Prod.mk.injEq] at h
        rw [← h.2.1]
        rw [hP (k, v) (by simp) T w v1 T1 hw,
          ih (fun p hp => hP p (by simp [hp])) T1 ws2 rest2 T2 hrest]
      · exact absurd h (by simp)
    · exact absurd h (by simp)

theorem dDecM_post_aux : ∀ (n : Nat) (v : Val), vsize v ≤ n → nodupKeys v = true →
    ∀ (T : List Val) r v' T', dDecM v T = some (r, v', T') → v' = v := by
  intro n
  induction n with
  | zero => intro v hv; have := vsize_pos v; omega
  | succ n ih =>
    intro v hv hnk T r v' T' h
    cases v with
    | vnull => simp only [dDecM, Option.some.injEq, Prod.mk.injEq] at h; exact h.2.1.symm
    | vint m => simp only [dDecM, Option.some.injEq, Prod.mk.injEq] at h; exact h.2.1.symm
    | vstr s => simp only [dDecM, Option.some.injEq, Prod.mk.injEq] at h; exact h.2.1.symm
    | vrec t fs =>
      simp only [dDecM, Option.some.injEq, Prod.mk.injEq] at h
      exact h.2.1.symm
    | vlist xs =>
      simp only [dDecM] at h
      split at h
      · rename_i ys xs2 T2 hxs
        simp only [Option.some.injEq, Prod.mk.injEq] at h
        rw [← h.2.1]
        rw [dDecListM_post xs
          (fun x hx => ih x
            (by have := vsize_le_of_mem xs x hx; simp [vsize] at hv; omega)
            (nodupKeysList_mem xs (by simpa [nodupKeys] using hnk) x hx))
          T ys xs2 T2 hxs]
      · exact absurd h (by simp)
    | vdict kvs =>
      simp only [nodupKeys, Bool.and_eq_true, decide_eq_true_eq] at hnk
      obtain ⟨hnd, hvals⟩ := hnk
      simp only [dDecM] at h
      split at h
      · split at h
        · split at h
          · simp only [Option.some.injEq, Prod.mk.injEq] at h
            exact h.2.1.symm
          · exact absurd h (by simp)
        · exact absurd h (by simp)
      · split at h
        · split at h
          · split at h
            · split at h
              · rename_i args hund
                split at h
                · rename_i as2 args2 T2 hargs
                  split at h
                  · simp only [Option.some.injEq, Prod.mk.injEq] at h
                    rw [← h.2.1]
                    have hnkargs : nodupKeys (Val.vlist args) = true :=
                      nodupKeysKVs_mem kvs hvals ("_", Val.vlist args)
                        (dlookup_mem kvs "_" (Val.vlist args) hund)
                    have hargs2 : args2 = args := dDecListM_post args
                      (fun x hx => ih x
                        (by have h1 := vsize_le_of_mem args x hx
                            have h2 := vsize_dlookup kvs "_" (Val.vlist args) hund
                            simp [vsize] at h2 hv
                            omega)
                        (nodupKeysList_mem args (by simpa [nodupKeys] using hnkargs) x hx))
                      T as2 args2 T2 hargs
                    subst hargs2
                    rw [substPost_id]
                    intro k w hm u hl
                    simp only [dlookup] at hl
                    split at hl
                    · rename_i hk
                      cases hl
                      subst hk
                      exact (mem_nodup_unique kvs "_" (Val.vlist args2) w hnd
                        (dlookup_mem kvs "_" (Val.vlist args2) hund) hm)
                    · exact absurd hl (by simp [dlookup])
                  · exact absurd h (by simp)
                · exact absurd h (by simp)
              · exact absurd h (by simp)
            · exact absurd h (by simp)
          · exact absurd h (by simp)
        · split at h
          · rename_i ws post T2 hkv
            simp only [Option.some.injEq, Prod.mk.injEq] at h
            rw [← h.2.1]
            have hpost : post = sortKVs kvs := dDecKVsM_post (sortKVs kvs)
              (fun p hp => ih p.2
                (by have := vsize_le_of_memKV kvs p ((mem_sortKVs p kvs).1 hp)
                    simp [vsize] at hv; omega)
                (nodupKeysKVs_mem kvs hvals p ((mem_sortKVs p kvs).1 hp)))
              T ws post T2 hkv
            subst hpost
            rw [substPost_id]
            intro k w hm u hl
            have hu : (k, u) ∈ kvs := (mem_sortKVs (k, u) kvs).1 (dlookup_mem _ _ _ hl)
            exact mem_nodup_unique kvs k u w hnd hu hm
          · exact absurd h (by simp)
  

/-- C6: for each of the three serializer strategies (`PlainSerializer`,
`DeduplicatingSerializer`, `FullyDeduplicatingSerializer`) and every
well-formed value built from the record types, lists, dicts, strings,
ints and `None`, `decode (encode v)` succeeds and is structurally equal
to `v` (Python `==`: `PlainSerializer` returns it verbatim, the two
deduplicating strategies return it up to dict key order, which Python
dict equality ignores). -/
theorem serializers_roundTrip (v : Val) (hwf : WFv v = true) :
    (∃ y, plainEncode v = some y ∧ plainDecode y = some v) ∧
    (∃ j r, dedupEncode v = some j ∧ dedupDecode j = some r ∧ pyEq r v) ∧
    (∃ j r, fullyEncode v = some j ∧ fullyDecode j = some r ∧ pyEq r v) := by
  refine ⟨plain_rt v hwf, ?_, ?_⟩
  · obtain ⟨j, hj, hjd⟩ := dedup_rt v hwf
    exact ⟨j, canon v, hj, hjd, canon_canon v⟩
  · obtain ⟨j, hj, hjd⟩ := fully_rt v hwf
    exact ⟨j, canon v, hj, hjd, canon_canon v⟩

/-- Witness for C6 at `exampleTree`, a tree with shared substructure
(the same goal record occurs three times), an empty list, deeply nested
hypotheses and a plain dict. -/
theorem serializers_roundTrip_witness :
    WFv exampleTree = true ∧
    ((∃ y, plainEncode exampleTree = some y ∧ plainDecode y = some exampleTree) ∧
     (∃ j r, dedupEncode exampleTree = some j ∧ dedupDecode j = some r ∧ pyEq r exampleTree) ∧
     (∃ j r, fullyEncode exampleTree = some j ∧ fullyDecode j = some r ∧ pyEq r exampleTree)) :=
  ⟨by decide, serializers_roundTrip exampleTree (by decide)⟩
  

/-- C7: after `FileCache.put` stores `annotated` under `metadata` and
`chunks`, a `get` misses (`none`) whenever the current metadata differs
(as a Python value, in any key) or the chunk list differs (in length or
any element), and returns exactly the stored `annotated` value when
both are equal. -/
theorem fileCache_get_put (metadata curMetadata : Val)
    (chunks curChunks : List (List Char)) (annotated : Val)
    (hwf : WFv annotated = true) (d : CacheData)
    (hput : cachePut metadata chunks annotated = some d) :
    (¬ pyEq curMetadata metadata ∨ curChunks ≠ chunks →
      cacheGet curMetadata (some d) curChunks = none) ∧
    (pyEq curMetadata metadata ∧ curChunks = chunks →
      cacheGet curMetadata (some d) curChunks = some annotated) := by
  obtain ⟨y, hy, hyd⟩ := plain_rt annotated hwf
  simp only [cachePut, hy, Option.map_some', Option.some.injEq] at hput
  subst hput
  constructor
  · intro hmiss
    simp only [cacheGet]
    rw [if_neg]
    rintro ⟨h1, h2⟩
    rcases hmiss with hm | hc
    · exact hm h1
    · exact hc h2
  · rintro ⟨h1, h2⟩
    simp only [cacheGet]
    rw [if_pos ⟨h1, h2⟩]
    exact hyd

/-- Witness for C7: a stored record is hit by Python-equal metadata
given with its keys in a different order, and the exact annotated value
comes back. -/
theorem fileCache_get_put_witness :
    WFv (Val.vrec .text [Val.vstr "ok"]) = true ∧
    cachePut (Val.vdict [("a", Val.vint 1), ("b", Val.vint 2)])
      [['x']] (Val.vrec .text [Val.vstr "ok"]) =
      some (CacheData.mk (Val.vdict [("a", Val.vint 1), ("b", Val.vint 2)]) [['x']]
        (Val.vdict [("_type", Val.vstr "text"), ("contents", Val.vstr "ok")])) ∧
    ((¬ pyEq (Val.vdict [("b", Val.vint 2), ("a", Val.vint 1)])
        (Val.vdict [("a", Val.vint 1), ("b", Val.vint 2)]) ∨ [['x']] ≠ [['x']] →
      cacheGet (Val.vdict [("b", Val.vint 2), ("a", Val.vint 1)])
        (some (CacheData.mk (Val.vdict [("a", Val.vint 1), ("b", Val.vint 2)]) [['x']]
          (Val.vdict [("_type", Val.vstr "text"), ("contents", Val.vstr "ok")])))
        [['x']] = none) ∧
     (pyEq (Val.vdict [("b", Val.vint 2), ("a", Val.vint 1)])
        (Val.vdict [("a", Val.vint 1), ("b", Val.vint 2)]) ∧ [['x']] = [['x']] →
      cacheGet (Val.vdict [("b", Val.vint 2), ("a", Val.vint 1)])
        (some (CacheData.mk (Val.vdict [("a", Val.vint 1), ("b", Val.vint 2)]) [['x']]
          (Val.vdict [("_type", Val.vstr "text"), ("contents", Val.vstr "ok")])))
        [['x']] = some (Val.vrec .text [Val.vstr "ok"]))) :=
  ⟨by decide, by decide,
    fileCache_get_put (Val.vdict [("a", Val.vint 1), ("b", Val.vint 2)])
      (Val.vdict [("b", Val.vint 2), ("a", Val.vint 1)]) [['x']] [['x']]
      (Val.vrec .text [Val.vstr "ok"]) (by decide) _ (by decide)⟩
  

/-- Counterexample to the "returns a result" half of C10:
`PlainSerializer.decode` on the dict `{"_type": "bogus"}` pops a truthy
tag, looks it up in `TYPE_OF_ALIASES` and raises `KeyError` — it does
not return a result. -/
theorem plainDecode_unknownType_fails :
    plainDecode (.vdict [("_type", .vstr "bogus")]) = none := by decide

/-- C10 (amended): the decoders never mutate their input.  With the
input's post-state tracked operation by operation, whenever
`PlainSerializer.decode` or `DeduplicatingSerializer.decode` returns a
result, the input comes back structurally unchanged — in particular the
`"_type"`, `"&"`, `"*"` and `"_"` entries of input dictionaries are
preserved, `PlainSerializer.decode`'s `pop("_type")` acting on the
freshly built copy only.  (The claim's "returns a result" half is
false: decoding fails on unknown type tags.) -/
theorem decode_preserves_input (js : Val) (hnk : nodupKeys js = true) :
    (∀ r js', plainDecodeM js = some (r, js') → js' = js) ∧
    (∀ (T : List Val) r js' T', dDecM js T = some (r, js', T') → js' = js) :=
  ⟨fun r js' h => plainM_post_aux (vsize js) js (le_refl _) r js' h,
   fun T r js' T' h => dDecM_post_aux (vsize js) js (le_refl _) hnk T r js' T' h⟩

/-- Witness for C10 on a concrete dict input. -/
theorem decode_preserves_input_witness :
    nodupKeys (Val.vdict [("k", Val.vint 1), ("_", Val.vlist [Val.vstr "s"])]) = true ∧
    ((∀ r js', plainDecodeM (Val.vdict [("k", Val.vint 1), ("_", Val.vlist [Val.vstr "s"])]) =
        some (r, js') → js' = Val.vdict [("k", Val.vint 1), ("_", Val.vlist [Val.vstr "s"])]) ∧
     (∀ (T : List Val) r js' T',
        dDecM (Val.vdict [("k", Val.vint 1), ("_", Val.vlist [Val.vstr "s"])]) T =
          some (r, js', T') →
        js' = Val.vdict [("k", Val.vint 1), ("_", Val.vlist [Val.vstr "s"])])) :=
  ⟨by decide, decode_preserves_input _ (by decide)⟩
  
end Alectryon
